import Mathlib

/-!
Verification of `smart-chery-pick.py` (a git cherry-pick assistant).

This file shallowly embeds the data model and the operations of the script
and proves (or refutes) the frozen specification claims about it.

Conventions of the embedding:
* Python strings are modelled as `List Char` (for path manipulation) or as
  Lean `String` (for opaque identifiers such as commit hashes).
* Python integers are `Nat`/`ℤ`; Python float arithmetic in
  `calculate_similarity` is modelled exactly by `ℚ` (the quantities involved
  are ratios of small integers).
* Python sets are modelled by lists considered up to membership; insertion
  adds an element only when it is absent, mirroring `set.add`.
* Interactive input (`input(...)`) is modelled by a stream of strings carried
  in the state; external git commands are modelled by oracle functions
  supplied as an environment structure, universally quantified in every
  theorem.
-/

/-- Cost of substituting `c2` for `c1`: Python's `(c1 != c2)` used as an
integer in `calculate_similarity`. -/
def delta (c1 c2 : Char) : Nat := if c1 = c2 then 0 else 1

/-- Reference edit distance, written from the specification's words:
"classic Levenshtein (insertion, deletion, substitution cost 1 each)".
`levRef a b i j` is the distance between the first `i` characters of `a`
and the first `j` characters of `b` (the Wagner–Fischer recurrence). -/
def levRef (a b : List Char) : Nat → Nat → Nat
  | 0, j => j
  | i + 1, 0 => i + 1
  | i + 1, j + 1 =>
      min (min (levRef a b i (j + 1) + 1) (levRef a b (i + 1) j + 1))
        (levRef a b i j + delta (a.getD i ' ') (b.getD j ' '))
termination_by i j => (i, j)

/-- Reference edit distance between two whole strings. -/
def editDistance (a b : List Char) : Nat := levRef a b a.length b.length

/-- Inner loop of `calculate_similarity` (source lines 549-553): given the
current character `c1` of `str1`, the previously computed entry `d` of
`curr_row`, the remaining entries `prev` of `prev_row` starting at index `j`,
and the remaining characters of `str2`, produce the remaining entries of
`curr_row`.  `insertions = prev_row[j+1] + 1`, `deletions = curr_row[j] + 1`,
`substitutions = prev_row[j] + (c1 != c2)`. -/
def currRowAux (c1 : Char) : Nat → List Nat → List Char → List Nat
  | _, _, [] => []
  | d, prev, c2 :: cs =>
      let insertions := prev.tail.headD 0 + 1
      let deletions := d + 1
      let substitutions := prev.headD 0 + delta c1 c2
      let e := min (min insertions deletions) substitutions
      e :: currRowAux c1 e prev.tail cs

/-- One iteration of the outer loop of `calculate_similarity` (source lines
547-554): `curr_row = [i + 1]` followed by the inner loop. -/
def buildRow (c1 : Char) (i : Nat) (prev : List Nat) (s2 : List Char) : List Nat :=
  (i + 1) :: currRowAux c1 (i + 1) prev s2

/-- Outer loop of `calculate_similarity`: fold `buildRow` over the characters
of `str1`, starting from `prev_row = range(n + 1)`. -/
def levLoop : List Char → List Char → Nat → List Nat → List Nat
  | [], _, _, prev => prev
  | c1 :: rest, s2, i, prev => levLoop rest s2 (i + 1) (buildRow c1 i prev s2)

/-- The single-row rolling-array edit distance exactly as implemented in
`calculate_similarity` (source lines 546-556): run the row loop and read
`prev_row[n]`. -/
def levImpl (s1 s2 : List Char) : Nat :=
  (levLoop s1 s2 0 (List.range (s2.length + 1))).getD s2.length 0

/-- Helper: decompose `l.drop i = c :: cs` into index facts. -/
theorem drop_cons_facts {l : List Char} {i : Nat} {c : Char} {cs : List Char}
    (h : l.drop i = c :: cs) :
    i < l.length ∧ l.getD i ' ' = c ∧ l.drop (i + 1) = cs := by
  have hlt : i < l.length := by
    by_contra hge
    rw [not_lt, ← List.drop_eq_nil_iff] at hge
    simp [hge] at h
  refine ⟨hlt, ?_, ?_⟩
  · rw [List.getD_eq_getElem _ _ (by omega)]
    have h0 : (l.drop i)[0]? = some c := by rw [h]; simp
    rw [List.getElem?_drop, Nat.add_zero, List.getElem?_eq_getElem hlt] at h0
    exact Option.some.inj h0
  · have h1 : (l.drop i).drop 1 = cs := by simp [h]
    rw [List.drop_drop] at h1
    simpa [Nat.add_comm] using h1

/-- The segment of the Wagner–Fischer row for prefix length `i` of `a`,
starting at column `j`. -/
def rowSeg (a b : List Char) (i j : Nat) : List Nat :=
  (List.range (b.length + 1 - j)).map (fun t => levRef a b i (j + t))

theorem rowSeg_cons (a b : List Char) (i j : Nat) (hj : j ≤ b.length) :
    rowSeg a b i j = levRef a b i j :: rowSeg a b i (j + 1) := by
  unfold rowSeg
  have h1 : b.length + 1 - j = (b.length - j) + 1 := by omega
  have h2 : b.length + 1 - (j + 1) = b.length - j := by omega
  rw [h1, h2, List.range_succ_eq_map, List.map_cons, List.map_map]
  refine congrArg₂ _ (by simp) (List.map_congr_left ?_)
  intro t _
  simp only [Function.comp]
  congr 1
  omega

theorem currRowAux_spec (a b : List Char) (i : Nat) :
    ∀ (cs : List Char) (j : Nat), b.drop j = cs →
      currRowAux (a.getD i ' ') (levRef a b (i + 1) j) (rowSeg a b i j) cs
        = (List.range (b.length - j)).map (fun t => levRef a b (i + 1) (j + t + 1)) := by
  intro cs
  induction cs with
  | nil =>
      intro j hj
      have : b.length ≤ j := by rwa [List.drop_eq_nil_iff] at hj
      have hz : b.length - j = 0 := by omega
      simp [currRowAux, hz]
  | cons c2 cs' ih =>
      intro j hj
      obtain ⟨hjlt, hgd, hdrop⟩ := drop_cons_facts hj
      have hj1 : j + 1 ≤ b.length := hjlt
      have hrow : rowSeg a b i j = levRef a b i j :: rowSeg a b i (j + 1) :=
        rowSeg_cons a b i j (le_of_lt hjlt)
      have hrow1 : rowSeg a b i (j + 1)
          = levRef a b i (j + 1) :: rowSeg a b i (j + 2) := by
        have := rowSeg_cons a b i (j + 1) hj1
        simpa using this
      have hlev : levRef a b (i + 1) (j + 1)
          = min (min (levRef a b i (j + 1) + 1) (levRef a b (i + 1) j + 1))
              (levRef a b i j + delta (a.getD i ' ') (b.getD j ' ')) := by
        rw [levRef]
      have hrange : b.length - j = (b.length - (j + 1)) + 1 := by omega
      rw [currRowAux, hrow]
      simp only [List.tail_cons, List.headD_cons]
      rw [hrow1]
      simp only [List.headD_cons]
      have hstep : min (min (levRef a b i (j + 1) + 1) (levRef a b (i + 1) j + 1))
          (levRef a b i j + delta (a.getD i ' ') c2) = levRef a b (i + 1) (j + 1) := by
        rw [hlev, hgd]
      rw [hstep, ← hrow1]
      rw [ih (j + 1) hdrop]
      rw [hrange, List.range_succ_eq_map, List.map_cons, List.map_map]
      refine congrArg₂ _ (by simp) (List.map_congr_left ?_)
      intro t _
      simp only [Function.comp]
      congr 1
      omega

theorem levLoop_spec (a b : List Char) :
    ∀ (rest : List Char) (i : Nat), i ≤ a.length → a.drop i = rest →
      levLoop rest b i (rowSeg a b i 0) = rowSeg a b a.length 0 := by
  intro rest
  induction rest with
  | nil =>
      intro i hle hdrop
      have : a.length ≤ i := by rwa [List.drop_eq_nil_iff] at hdrop
      have : i = a.length := le_antisymm hle this
      subst this
      rfl
  | cons c1 rest' ih =>
      intro i _ hdrop
      obtain ⟨hlt, hgd, hdrop'⟩ := drop_cons_facts hdrop
      rw [levLoop]
      have hbuild : buildRow c1 i (rowSeg a b i 0) b = rowSeg a b (i + 1) 0 := by
        unfold buildRow
        have h0 : (i + 1) = levRef a b (i + 1) 0 := by rw [levRef]
        have hb0 : b.drop 0 = b := List.drop_zero b
        have hspec := currRowAux_spec a b i b 0 hb0
        rw [rowSeg_cons a b (i + 1) 0 (Nat.zero_le _)]
        refine congrArg₂ _ h0 ?_
        have h0' : levRef a b (i + 1) 0 = i + 1 := by rw [levRef]
        rw [← hgd]
        calc currRowAux (a.getD i ' ') (i + 1) (rowSeg a b i 0) b
            = currRowAux (a.getD i ' ') (levRef a b (i + 1) 0) (rowSeg a b i 0) b := by
              rw [h0']
          _ = (List.range (b.length - 0)).map (fun t => levRef a b (i + 1) (0 + t + 1)) :=
              hspec
          _ = rowSeg a b (i + 1) 1 := by
              unfold rowSeg
              simp only [Nat.sub_zero, Nat.add_sub_cancel]
              refine List.map_congr_left ?_
              intro t _
              congr 1
              omega
      rw [hbuild]
      exact ih (i + 1) hlt hdrop'

/-- The rolling-array implementation computes the reference Levenshtein
distance. -/
theorem levImpl_eq_editDistance (a b : List Char) : levImpl a b = editDistance a b := by
  unfold levImpl editDistance
  have hinit : rowSeg a b 0 0 = List.range (b.length + 1) := by
    unfold rowSeg
    rw [Nat.sub_zero]
    have h : ∀ t ∈ List.range (b.length + 1), levRef a b 0 (0 + t) = t := by
      intro t _
      rw [Nat.zero_add, levRef]
    rw [List.map_congr_left h]
    simp
  rw [← hinit, levLoop_spec a b a 0 (Nat.zero_le _) (List.drop_zero a)]
  unfold rowSeg
  have hlt : b.length < (List.range (b.length + 1 - 0)).length := by simp
  rw [List.getD_eq_getElem _ _ (by simp)]
  simp

theorem delta_comm (c1 c2 : Char) : delta c1 c2 = delta c2 c1 := by
  unfold delta
  by_cases h : c1 = c2
  · simp [h]
  · have h' : c2 ≠ c1 := fun hh => h hh.symm
    simp [h, h']

theorem delta_le_one (c1 c2 : Char) : delta c1 c2 ≤ 1 := by
  unfold delta
  split <;> omega

/-- The reference recurrence is symmetric in its two strings. -/
theorem levRef_symm (a b : List Char) : (i j : Nat) → levRef a b i j = levRef b a j i
  | 0, 0 => by rw [levRef, levRef]
  | 0, j + 1 => by rw [levRef, levRef]
  | i + 1, 0 => by rw [levRef, levRef]
  | i + 1, j + 1 => by
      rw [levRef, levRef]
      rw [levRef_symm a b i (j + 1), levRef_symm a b (i + 1) j, levRef_symm a b i j,
        delta_comm]
      rw [Nat.min_comm (levRef b a (j + 1) i + 1) (levRef b a j (i + 1) + 1)]
termination_by i j => (i, j)

theorem editDistance_symm (a b : List Char) : editDistance a b = editDistance b a :=
  levRef_symm a b a.length b.length

/-- The reference distance never exceeds the longer prefix length. -/
theorem levRef_le_max (a b : List Char) : (i j : Nat) → levRef a b i j ≤ max i j
  | 0, j => by rw [levRef]; omega
  | i + 1, 0 => by rw [levRef]; omega
  | i + 1, j + 1 => by
      rw [levRef]
      have h1 := levRef_le_max a b i j
      have h2 := delta_le_one (a.getD i ' ') (b.getD j ' ')
      have h3 := Nat.min_le_right
        (min (levRef a b i (j + 1) + 1) (levRef a b (i + 1) j + 1))
        (levRef a b i j + delta (a.getD i ' ') (b.getD j ' '))
      omega
termination_by i j => (i, j)

theorem editDistance_le_max (a b : List Char) :
    editDistance a b ≤ max a.length b.length :=
  levRef_le_max a b a.length b.length

/-- Python's `round` on a real value: round half to even (banker's rounding).
The float arithmetic of the source is modelled exactly over `ℚ`. -/
def pyRound (q : ℚ) : ℤ :=
  if q - ⌊q⌋ < 1 / 2 then ⌊q⌋
  else if (1 : ℚ) / 2 < q - ⌊q⌋ then ⌊q⌋ + 1
  else if ⌊q⌋ % 2 = 0 then ⌊q⌋ else ⌊q⌋ + 1

/-- Body of `calculate_similarity` after the argument swap (source lines
543-559): `str1` is the longer string.  The self-call
`calculate_similarity(str2, str1)` of line 541 is inlined here, since after
the swap the length test fails and control reaches this body. -/
def calcSimCore (str1 str2 : List Char) : ℤ :=
  if str2.length = 0 then 0
  else
    pyRound ((((max str1.length str2.length : ℕ) : ℚ) - (levImpl str1 str2 : ℚ))
      / ((max str1.length str2.length : ℕ) : ℚ) * 100)

/-- `calculate_similarity` (source lines 535-559). -/
def calculate_similarity (str1 str2 : List Char) : ℤ :=
  if str1 = [] ∨ str2 = [] then 0
  else if str1.length < str2.length then calcSimCore str2 str1
  else calcSimCore str1 str2

theorem div_mul_hundred (x M : ℚ) : x / M * 100 = 100 * x / M := by ring

/-- C2: for non-empty strings the implementation equals the reference
formula `round(100 * (max(len a, len b) - editDistance(a, b)) / max(...))`. -/
theorem calculate_similarity_eq_ref (a b : List Char) (ha : a ≠ []) (hb : b ≠ []) :
    calculate_similarity a b
      = pyRound (100 * (((max a.length b.length : ℕ) : ℚ) - (editDistance a b : ℚ))
          / ((max a.length b.length : ℕ) : ℚ)) := by
  unfold calculate_similarity
  rw [if_neg (by simp [ha, hb])]
  by_cases hlt : a.length < b.length
  · rw [if_pos hlt]
    unfold calcSimCore
    rw [if_neg (by simpa using ha)]
    rw [levImpl_eq_editDistance, editDistance_symm b a, Nat.max_comm b.length a.length,
      div_mul_hundred]
  · rw [if_neg hlt]
    unfold calcSimCore
    rw [if_neg (by simpa using hb)]
    rw [levImpl_eq_editDistance, div_mul_hundred]

theorem pyRound_mem (q : ℚ) : pyRound q = ⌊q⌋ ∨ pyRound q = ⌊q⌋ + 1 := by
  unfold pyRound
  split
  · exact Or.inl rfl
  · split
    · exact Or.inr rfl
    · split
      · exact Or.inl rfl
      · exact Or.inr rfl

theorem pyRound_bounds {q : ℚ} (h0 : 0 ≤ q) (h100 : q ≤ 100) :
    0 ≤ pyRound q ∧ pyRound q ≤ 100 := by
  have hf0 : (0 : ℤ) ≤ ⌊q⌋ := by
    rw [Int.le_floor]
    exact_mod_cast h0
  have hf100 : ⌊q⌋ ≤ 100 := by
    have : (⌊q⌋ : ℚ) ≤ 100 := le_trans (Int.floor_le q) h100
    exact_mod_cast this
  rcases pyRound_mem q with h | h
  · omega
  · constructor
    · omega
    · rw [h]
      by_contra hgt
      have hf : ⌊q⌋ = 100 := by omega
      have : q - ⌊q⌋ < 1 / 2 := by
        rw [hf]
        push_cast
        linarith
      unfold pyRound at h
      rw [if_pos this] at h
      omega

theorem calcSimCore_bounds (s1 s2 : List Char) :
    0 ≤ calcSimCore s1 s2 ∧ calcSimCore s1 s2 ≤ 100 := by
  unfold calcSimCore
  split
  · omega
  · rename_i hn
    set M : ℕ := max s1.length s2.length with hM
    have hMpos : 0 < M := by
      have : 0 < s2.length := Nat.pos_of_ne_zero hn
      omega
    have hd : levImpl s1 s2 ≤ M := by
      rw [levImpl_eq_editDistance]
      exact editDistance_le_max s1 s2
    have hMq : (0 : ℚ) < (M : ℚ) := by exact_mod_cast hMpos
    have hnum : (0 : ℚ) ≤ (M : ℚ) - (levImpl s1 s2 : ℚ) := by
      have : ((levImpl s1 s2 : ℕ) : ℚ) ≤ (M : ℚ) := by exact_mod_cast hd
      linarith
    have hq0 : (0 : ℚ) ≤ ((M : ℚ) - (levImpl s1 s2 : ℚ)) / (M : ℚ) * 100 := by
      have := div_nonneg hnum (le_of_lt hMq)
      linarith
    have hq100 : ((M : ℚ) - (levImpl s1 s2 : ℚ)) / (M : ℚ) * 100 ≤ 100 := by
      have hle1 : ((M : ℚ) - (levImpl s1 s2 : ℚ)) / (M : ℚ) ≤ 1 := by
        rw [div_le_one hMq]
        have : (0 : ℚ) ≤ (levImpl s1 s2 : ℚ) := by positivity
        linarith
      linarith
    exact pyRound_bounds hq0 hq100

theorem calculate_similarity_bounds (s1 s2 : List Char) :
    0 ≤ calculate_similarity s1 s2 ∧ calculate_similarity s1 s2 ≤ 100 := by
  unfold calculate_similarity
  split
  · omega
  · split
    · exact calcSimCore_bounds s2 s1
    · exact calcSimCore_bounds s1 s2

/-- C9: similarity against an empty string is 0, also when both are empty. -/
theorem calculate_similarity_empty (a : List Char) :
    calculate_similarity a [] = 0 ∧ calculate_similarity [] a = 0 := by
  constructor <;> simp [calculate_similarity]

/-- Executable form of banker's rounding for a fraction of naturals. -/
def pyRoundNat (a b : ℕ) : ℤ :=
  if 2 * (a % b) < b then ((a / b : ℕ) : ℤ)
  else if b < 2 * (a % b) then ((a / b : ℕ) : ℤ) + 1
  else if (a / b) % 2 = 0 then ((a / b : ℕ) : ℤ) else ((a / b : ℕ) : ℤ) + 1

theorem pyRound_nat_div (a b : ℕ) (hb : 0 < b) :
    pyRound ((a : ℚ) / (b : ℚ)) = pyRoundNat a b := by
  have hbq : (0 : ℚ) < (b : ℚ) := by exact_mod_cast hb
  have hfl : ⌊(a : ℚ) / (b : ℚ)⌋ = ((a / b : ℕ) : ℤ) := by
    have h1 : ((a : ℚ)) = (((a : ℤ) : ℚ)) := by push_cast; ring
    rw [h1, Rat.floor_intCast_div_natCast]
    exact_mod_cast (Int.ofNat_ediv a b).symm
  have hmod : (b : ℚ) * ((a / b : ℕ) : ℚ) + ((a % b : ℕ) : ℚ) = (a : ℚ) := by
    exact_mod_cast Nat.div_add_mod a b
  have hfrac : (a : ℚ) / (b : ℚ) - (((a / b : ℕ) : ℤ) : ℚ)
      = ((a % b : ℕ) : ℚ) / (b : ℚ) := by
    rw [Int.cast_natCast]
    field_simp
    linarith
  have h1 : ((a : ℚ) / (b : ℚ) - (((a / b : ℕ) : ℤ) : ℚ) < 1 / 2)
      ↔ (2 * (a % b) < b) := by
    rw [hfrac, div_lt_iff hbq]
    constructor
    · intro h
      have h2 : ((2 * (a % b) : ℕ) : ℚ) < (b : ℚ) := by push_cast; linarith
      exact_mod_cast h2
    · intro h
      have h2 : ((2 * (a % b) : ℕ) : ℚ) < (b : ℚ) := by exact_mod_cast h
      push_cast at h2
      linarith
  have h2 : ((1 : ℚ) / 2 < (a : ℚ) / (b : ℚ) - (((a / b : ℕ) : ℤ) : ℚ))
      ↔ (b < 2 * (a % b)) := by
    rw [hfrac, lt_div_iff hbq]
    constructor
    · intro h
      have h2 : (b : ℚ) < ((2 * (a % b) : ℕ) : ℚ) := by push_cast; linarith
      exact_mod_cast h2
    · intro h
      have h2 : (b : ℚ) < ((2 * (a % b) : ℕ) : ℚ) := by exact_mod_cast h
      push_cast at h2
      linarith
  have h3 : (((a / b : ℕ) : ℤ) % 2 = 0) ↔ ((a / b) % 2 = 0) := by omega
  unfold pyRound pyRoundNat
  rw [hfl]
  simp only [h1, h2, h3]

/-- Executable form of `calculate_similarity`: the similarity of two strings
expressed over natural-number arithmetic. -/
theorem calculate_similarity_eval (s1 s2 : List Char) :
    calculate_similarity s1 s2
      = if s1 = [] ∨ s2 = [] then 0
        else pyRoundNat (100 * (max s1.length s2.length - levImpl s1 s2))
          (max s1.length s2.length) := by
  by_cases he : s1 = [] ∨ s2 = []
  · rw [if_pos he]
    rcases he with h | h <;> subst h
    · exact (calculate_similarity_empty s2).2
    · exact (calculate_similarity_empty s1).1
  · rw [if_neg he]
    push_neg at he
    have hM : 0 < max s1.length s2.length := by
      have : s1.length ≠ 0 := by
        intro h
        exact he.1 (List.length_eq_zero.mp h)
      omega
    have hd : editDistance s1 s2 ≤ max s1.length s2.length := editDistance_le_max s1 s2
    rw [calculate_similarity_eq_ref s1 s2 he.1 he.2]
    rw [← pyRound_nat_div _ _ hM]
    congr 1
    rw [levImpl_eq_editDistance]
    push_cast [Nat.cast_sub hd]
    ring

/-- Witness for C2 at a concrete pair of non-empty strings. -/
theorem calculate_similarity_eq_ref_witness :
    ("kitten".toList ≠ ([] : List Char)) ∧ ("sitting".toList ≠ ([] : List Char)) ∧
      calculate_similarity "kitten".toList "sitting".toList
        = pyRound (100 * (((max "kitten".toList.length "sitting".toList.length : ℕ) : ℚ)
            - (editDistance "kitten".toList "sitting".toList : ℚ))
            / ((max "kitten".toList.length "sitting".toList.length : ℕ) : ℚ)) :=
  ⟨by decide, by decide, calculate_similarity_eq_ref _ _ (by decide) (by decide)⟩

/-- Python `str.rfind` for a single character: index of the last occurrence,
`-1` when absent. -/
def pyRFindGo (c : Char) : List Char → Nat → Int
  | [], _ => -1
  | x :: xs, i =>
      let rest := pyRFindGo c xs (i + 1)
      if rest = -1 then (if x = c then (i : Int) else -1) else rest

def pyRFind (l : List Char) (c : Char) : Int := pyRFindGo c l 0

/-- `os.path.basename` (posix): everything after the last slash. -/
def osBasename (p : List Char) : List Char := p.drop ((pyRFind p '/') + 1).toNat

/-- Python `str.rstrip('/')` as used by `os.path.dirname`. -/
def dropTrailingSlashes (l : List Char) : List Char :=
  (l.reverse.dropWhile (fun ch => ch = '/')).reverse

/-- `os.path.dirname` (posix): everything up to the last slash, with trailing
slashes stripped unless the result is all slashes. -/
def osDirname (p : List Char) : List Char :=
  let head := p.take ((pyRFind p '/') + 1).toNat
  if head ≠ [] ∧ head ≠ List.replicate head.length '/' then dropTrailingSlashes head
  else head

/-- `os.path.splitext` (posix `genericpath._splitext`): split off the last
dot-suffix of the final path component, except that leading dots of the
component never start an extension. -/
def osSplitext (p : List Char) : List Char × List Char :=
  let sepIndex := pyRFind p '/'
  let dotIndex := pyRFind p '.'
  if sepIndex < dotIndex then
    if ((p.drop (sepIndex + 1).toNat).take (dotIndex - sepIndex - 1).toNat).any
        (fun ch => ch ≠ '.') then
      (p.take dotIndex.toNat, p.drop dotIndex.toNat)
    else (p, [])
  else (p, [])

/-- Stable insertion into a descending-sorted candidate list: skip only past
elements with strictly greater score, so the new element lands before the
equal-scored elements of the tail.  `sortDesc` inserts the head into the
sorted tail, whose elements all come later in the original list, so tied
elements keep their original relative order, as Python's stable
`list.sort(key=..., reverse=True)` does (proved in `sortDesc_filter`). -/
def insertDesc (x : List Char × ℤ) : List (List Char × ℤ) → List (List Char × ℤ)
  | [] => [x]
  | y :: ys => if x.2 < y.2 then y :: insertDesc x ys else x :: y :: ys

/-- Stable descending sort by score, modelling
`similar_files.sort(key=lambda x: x[1], reverse=True)`. -/
def sortDesc : List (List Char × ℤ) → List (List Char × ℤ)
  | [] => []
  | x :: xs => insertDesc x (sortDesc xs)

/-- First pass of `find_similar_files` (source lines 493-499): same base name
with a different extension scores a fixed 90. -/
def fsfExtSwap (filebase extn : List Char) (all_files : List (List Char)) :
    List (List Char × ℤ) :=
  if extn ≠ [] then
    all_files.filterMap (fun repo_file =>
      let rsplit := osSplitext (osBasename repo_file)
      if filebase = rsplit.1 ∧ extn ≠ rsplit.2 then some (repo_file, (90 : ℤ)) else none)
  else []

/-- Second pass of `find_similar_files` (source lines 502-517): name
similarity plus directory bonuses, kept when the total meets the threshold. -/
def fsfByName (threshold : ℤ) (basename dirname : List Char)
    (all_files : List (List Char)) : List (List Char × ℤ) :=
  all_files.filterMap (fun repo_file =>
    let repo_basename := osBasename repo_file
    let repo_dirname := osDirname repo_file
    let s0 := calculate_similarity basename repo_basename
    let s1 := if dirname = repo_dirname then s0 + 20 else s0
    let s2 := if calculate_similarity dirname repo_dirname > 70 then s1 + 10 else s1
    if s2 ≥ threshold then some (repo_file, s2) else none)

/-- Does `needle` occur at the start of `hay`? -/
def startsList : List Char → List Char → Bool
  | [], _ => true
  | _ :: _, [] => false
  | a :: as, b :: bs => a = b && startsList as bs

/-- Python's substring test `needle in hay`. -/
def substrB : List Char → List Char → Bool
  | needle, [] => needle.isEmpty
  | needle, h :: t => startsList needle (h :: t) || substrB needle t

/-- Last-resort pass of `find_similar_files` (source lines 520-525): partial
base-name matches score a fixed 60. -/
def fsfPartial (filebase : List Char) (all_files : List (List Char)) :
    List (List Char × ℤ) :=
  all_files.filterMap (fun repo_file =>
    let repo_basename := osBasename repo_file
    if filebase.length > 5 ∧
        (substrB (filebase.take 5) repo_basename = true ∨
          substrB (filebase.drop (filebase.length - 5)) repo_basename = true) then
      some (repo_file, (60 : ℤ))
    else none)

/-- `find_similar_files` (source lines 476-533), with the repository file
list (`git ls-files` output) passed as a parameter and the per-path result
cache omitted (the cache only replays a previously computed result). -/
def find_similar_files (threshold : ℤ) (all_files : List (List Char))
    (file_path : List Char) : List (List Char × ℤ) :=
  let basename := osBasename file_path
  let dirname := osDirname file_path
  let filebase := (osSplitext basename).1
  let extn := (osSplitext basename).2
  let sim := fsfExtSwap filebase extn all_files ++ fsfByName threshold basename dirname all_files
  let sim2 := if sim = [] ∧ filebase.length > 3 then fsfPartial filebase all_files else sim
  (sortDesc sim2).take 5

theorem mem_insertDesc (x y : List Char × ℤ) (l : List (List Char × ℤ)) :
    x ∈ insertDesc y l ↔ x = y ∨ x ∈ l := by
  induction l with
  | nil => simp [insertDesc]
  | cons z zs ih =>
      unfold insertDesc
      split
      · simp only [List.mem_cons, ih]
        tauto
      · simp only [List.mem_cons]

theorem mem_sortDesc (x : List Char × ℤ) (l : List (List Char × ℤ)) :
    x ∈ sortDesc l ↔ x ∈ l := by
  induction l with
  | nil => simp [sortDesc]
  | cons z zs ih =>
      unfold sortDesc
      rw [mem_insertDesc]
      simp [ih]

theorem pairwise_insertDesc (x : List Char × ℤ) (l : List (List Char × ℤ))
    (hl : List.Pairwise (fun a b => b.2 ≤ a.2) l) :
    List.Pairwise (fun a b => b.2 ≤ a.2) (insertDesc x l) := by
  induction l with
  | nil => simp [insertDesc]
  | cons z zs ih =>
      rw [List.pairwise_cons] at hl
      unfold insertDesc
      split
      · rename_i hlt
        rw [List.pairwise_cons]
        constructor
        · intro a ha
          rcases (mem_insertDesc a x zs).mp ha with h | h
          · subst h; exact le_of_lt hlt
          · exact hl.1 a h
        · exact ih hl.2
      · rename_i hge
        push_neg at hge
        rw [List.pairwise_cons]
        constructor
        · intro a ha
          rcases List.mem_cons.mp ha with h | h
          · subst h; exact hge
          · exact le_trans (hl.1 a h) hge
        · rw [List.pairwise_cons]
          exact hl
      
theorem sortDesc_sorted (l : List (List Char × ℤ)) :
    List.Pairwise (fun a b => b.2 ≤ a.2) (sortDesc l) := by
  induction l with
  | nil => simp [sortDesc]
  | cons z zs ih => exact pairwise_insertDesc z (sortDesc zs) ih

theorem filter_insertDesc_ne (v : ℤ) (x : List Char × ℤ)
    (l : List (List Char × ℤ)) (hx : x.2 ≠ v) :
    (insertDesc x l).filter (fun y => decide (y.2 = v))
      = l.filter (fun y => decide (y.2 = v)) := by
  induction l with
  | nil => simp [insertDesc, hx]
  | cons z zs ih =>
      unfold insertDesc
      split
      · simp only [List.filter_cons, ih]
      · simp [List.filter_cons, hx]

theorem filter_insertDesc_eq (v : ℤ) (x : List Char × ℤ)
    (l : List (List Char × ℤ)) (hx : x.2 = v) :
    (insertDesc x l).filter (fun y => decide (y.2 = v))
      = x :: l.filter (fun y => decide (y.2 = v)) := by
  induction l with
  | nil => simp [insertDesc, hx]
  | cons z zs ih =>
      unfold insertDesc
      split
      · rename_i hlt
        have hz : ¬ z.2 = v := by omega
        simp only [List.filter_cons, hz, decide_eq_true_eq, if_neg, ih]
        simp [hz]
      · simp [List.filter_cons, hx]

/-- `sortDesc` is a stable sort: for every score, the elements carrying that
score appear in the sorted list exactly in their original relative order. -/
theorem sortDesc_filter (v : ℤ) (l : List (List Char × ℤ)) :
    (sortDesc l).filter (fun y => decide (y.2 = v))
      = l.filter (fun y => decide (y.2 = v)) := by
  induction l with
  | nil => rfl
  | cons x xs ih =>
      unfold sortDesc
      by_cases hx : x.2 = v
      · rw [filter_insertDesc_eq v x _ hx, ih]
        simp [List.filter_cons, hx]
      · rw [filter_insertDesc_ne v x _ hx, ih]
        simp [List.filter_cons, hx]

theorem filter_take_prefix (q : List Char × ℤ → Bool) (n : Nat)
    (l : List (List Char × ℤ)) : (l.take n).filter q <+: l.filter q :=
  ⟨(l.drop n).filter q, by rw [← List.filter_append, List.take_append_drop]⟩

theorem mem_fsfExtSwap (filebase extn : List Char) (all_files : List (List Char))
    (x : List Char × ℤ) (hx : x ∈ fsfExtSwap filebase extn all_files) : x.2 = 90 := by
  unfold fsfExtSwap at hx
  split at hx
  · rw [List.mem_filterMap] at hx
    obtain ⟨a, _, ha⟩ := hx
    dsimp only at ha
    split at ha
    · have hxa := Option.some_inj.mp ha
      subst hxa
      rfl
    · exact absurd ha (by simp)
  · simp at hx

theorem mem_fsfByName (threshold : ℤ) (basename dirname : List Char)
    (all_files : List (List Char)) (x : List Char × ℤ)
    (hx : x ∈ fsfByName threshold basename dirname all_files) :
    threshold ≤ x.2 ∧ 0 ≤ x.2 ∧ x.2 ≤ 130 := by
  unfold fsfByName at hx
  rw [List.mem_filterMap] at hx
  obtain ⟨a, _, ha⟩ := hx
  dsimp only at ha
  have hb := calculate_similarity_bounds basename (osBasename a)
  split_ifs at ha
  all_goals simp at ha
  all_goals subst ha
  all_goals refine ⟨?_, ?_, ?_⟩ <;> dsimp only <;> omega

theorem mem_fsfPartial (filebase : List Char) (all_files : List (List Char))
    (x : List Char × ℤ) (hx : x ∈ fsfPartial filebase all_files) : x.2 = 60 := by
  unfold fsfPartial at hx
  rw [List.mem_filterMap] at hx
  obtain ⟨a, _, ha⟩ := hx
  dsimp only at ha
  split at ha
  · exact (Option.some_inj.mp ha) ▸ rfl
  · exact absurd ha (by simp)

theorem fsf_candidate_facts (threshold : ℤ) (basename dirname filebase extn : List Char)
    (all_files : List (List Char)) (x : List Char × ℤ)
    (hx : x ∈ (if (fsfExtSwap filebase extn all_files
        ++ fsfByName threshold basename dirname all_files) = [] ∧ filebase.length > 3 then
          fsfPartial filebase all_files
        else fsfExtSwap filebase extn all_files
          ++ fsfByName threshold basename dirname all_files)) :
    min threshold 60 ≤ x.2 ∧ 0 ≤ x.2 ∧ x.2 ≤ 130 := by
  split at hx
  · have h60 := mem_fsfPartial filebase all_files x hx
    omega
  · rcases List.mem_append.mp hx with h | h
    · have h90 := mem_fsfExtSwap filebase extn all_files x h
      omega
    · have hby := mem_fsfByName threshold basename dirname all_files x h
      omega

/-- C3 (amended): the result of `find_similar_files` has at most 5 entries,
is sorted by descending score with ties broken by the original candidate
enumeration order (the sort is stable: for every score, the returned entries
carrying that score are an in-order prefix of the candidates emitted with
that score by the three passes), and every entry scores at least
`min threshold 60` (so at least the threshold whenever the configured
threshold is at most 60, in particular at the default 50). -/
theorem find_similar_files_spec (threshold : ℤ) (all_files : List (List Char))
    (p : List Char) :
    (find_similar_files threshold all_files p).length ≤ 5 ∧
      List.Pairwise (fun a b => b.2 ≤ a.2) (find_similar_files threshold all_files p) ∧
      (∀ x ∈ find_similar_files threshold all_files p, min threshold 60 ≤ x.2) ∧
      ∀ v : ℤ,
        (find_similar_files threshold all_files p).filter (fun y => decide (y.2 = v)) <+:
          (if (fsfExtSwap (osSplitext (osBasename p)).1 (osSplitext (osBasename p)).2
                all_files
              ++ fsfByName threshold (osBasename p) (osDirname p) all_files) = []
              ∧ (osSplitext (osBasename p)).1.length > 3 then
            fsfPartial (osSplitext (osBasename p)).1 all_files
          else fsfExtSwap (osSplitext (osBasename p)).1 (osSplitext (osBasename p)).2
              all_files
            ++ fsfByName threshold (osBasename p) (osDirname p) all_files).filter
            (fun y => decide (y.2 = v)) := by
  refine ⟨?_, ?_, ?_, ?_⟩
  · simp only [find_similar_files]
    rw [List.length_take]
    omega
  · simp only [find_similar_files]
    exact List.Pairwise.sublist (List.take_sublist 5 _) (sortDesc_sorted _)
  · intro x hx
    simp only [find_similar_files] at hx
    have hx1 := List.take_subset 5 _ hx
    have hx2 := (mem_sortDesc x _).mp hx1
    exact (fsf_candidate_facts threshold _ _ _ _ all_files x hx2).1
  · intro v
    simp only [find_similar_files]
    have hp := filter_take_prefix (fun y => decide (y.2 = v)) 5
      (sortDesc (if (fsfExtSwap (osSplitext (osBasename p)).1
            (osSplitext (osBasename p)).2 all_files
          ++ fsfByName threshold (osBasename p) (osDirname p) all_files) = []
          ∧ (osSplitext (osBasename p)).1.length > 3 then
        fsfPartial (osSplitext (osBasename p)).1 all_files
      else fsfExtSwap (osSplitext (osBasename p)).1 (osSplitext (osBasename p)).2
          all_files
        ++ fsfByName threshold (osBasename p) (osDirname p) all_files))
    rw [sortDesc_filter] at hp
    exact hp

/-- C8 (amended): every candidate score lies between 0 and 130 (base
similarity 0-100 plus up to 20 same-directory and 10 similar-directory
bonus); the fixed scores 90 and 60 of the other passes are within this
range. -/
theorem find_similar_files_score_bounds (threshold : ℤ) (all_files : List (List Char))
    (p : List Char) :
    ∀ x ∈ find_similar_files threshold all_files p, 0 ≤ x.2 ∧ x.2 ≤ 130 := by
  intro x hx
  simp only [find_similar_files] at hx
  have hx1 := List.take_subset 5 _ hx
  have hx2 := (mem_sortDesc x _).mp hx1
  exact (fsf_candidate_facts threshold _ _ _ _ all_files x hx2).2

/-- Counterexample to C3 as stated: with the rename-detection threshold
configured to 95, the extension-swap pass still emits its fixed score 90,
below the threshold. -/
theorem find_similar_files_threshold_cex :
    find_similar_files 95 ["a.c".toList] "a.py".toList = [("a.c".toList, 90)] ∧
      ¬ ∀ x ∈ find_similar_files 95 ["a.c".toList] "a.py".toList, (95 : ℤ) ≤ x.2 := by
  have h : find_similar_files 95 ["a.c".toList] "a.py".toList = [("a.c".toList, 90)] := by
    simp only [find_similar_files, fsfExtSwap, fsfByName, fsfPartial,
      calculate_similarity_eval]
    decide
  refine ⟨h, ?_⟩
  rw [h]
  decide

/-- Counterexample to C8 as stated: a candidate identical to the target (and
in the same directory) scores 100 + 20 + 10 = 130 > 100. -/
theorem find_similar_files_score_cex :
    find_similar_files 50 ["d/a.py".toList] "d/a.py".toList
        = [("d/a.py".toList, 130)] ∧
      ¬ ∀ x ∈ find_similar_files 50 ["d/a.py".toList] "d/a.py".toList,
          x.2 ≤ 100 := by
  have h : find_similar_files 50 ["d/a.py".toList] "d/a.py".toList
      = [("d/a.py".toList, 130)] := by
    simp only [find_similar_files, fsfExtSwap, fsfByName, fsfPartial,
      calculate_similarity_eval]
    decide
  refine ⟨h, ?_⟩
  rw [h]
  decide

/-- Step of the plan-building loops of `apply_commits_in_order` (source lines
1146-1148 and 1151-1154): append a commit only when it is neither already
present nor in the skip set. -/
def planStep (skipped : List String) (acc : List String) (c : String) : List String :=
  if c ∉ acc ∧ c ∉ skipped then acc ++ [c] else acc

/-- Source lines 1146-1148: ensure all initially requested commits are
included, appending the missing (and unskipped) ones to `final_commits`. -/
def apply_plan_final (initial final skipped : List String) : List String :=
  initial.foldl (planStep skipped) final

/-- Source lines 1151-1156: the `OrderedDict` pass keeping the first
occurrence of each commit not in the skip set. -/
def dedupPlan (l skipped : List String) : List String :=
  l.foldl (planStep skipped) []

/-- The commit list handed to the apply loop of `apply_commits_in_order`. -/
def apply_plan (initial final skipped : List String) : List String :=
  dedupPlan (apply_plan_final initial final skipped) skipped

/-- De-duplication keeping the first occurrence, written from the claim's
words; `seen` accumulates the elements already emitted. -/
def dedupFirstAux (seen : List String) : List String → List String
  | [] => []
  | c :: rest =>
      if c ∈ seen then dedupFirstAux seen rest
      else c :: dedupFirstAux (seen ++ [c]) rest

def dedupFirst (l : List String) : List String := dedupFirstAux [] l

/-- The apply plan exactly as claim C1 words it: requested commits not yet
present PREPENDED to the selected commits, skip set removed, de-duplicated
keeping the first occurrence. -/
def claimPlan (initial final skipped : List String) : List String :=
  dedupFirst ((initial.filter (fun c => decide (c ∉ final)) ++ final).filter
    (fun c => decide (c ∉ skipped)))

theorem mem_dedupFirstAux (x : String) :
    ∀ (l seen : List String), x ∈ dedupFirstAux seen l ↔ x ∈ l ∧ x ∉ seen := by
  intro l
  induction l with
  | nil => intro seen; simp [dedupFirstAux]
  | cons c rest ih =>
      intro seen
      unfold dedupFirstAux
      split
      · rename_i hc
        rw [ih seen]
        simp only [List.mem_cons]
        constructor
        · tauto
        · rintro ⟨h | h, hn⟩
          · subst h; exact absurd hc hn
          · exact ⟨h, hn⟩
      · rename_i hc
        simp only [List.mem_cons, ih (seen ++ [c]), List.mem_append]
        constructor
        · rintro (h | ⟨h1, h2⟩)
          · subst h; exact ⟨Or.inl rfl, hc⟩
          · exact ⟨Or.inr h1, fun hx => h2 (Or.inl hx)⟩
        · rintro ⟨h | h, hn⟩
          · exact Or.inl h
          · by_cases hxc : x = c
            · exact Or.inl hxc
            · exact Or.inr ⟨h, fun hx => by
                rcases hx with hx | hx
                · exact hn hx
                · exact hxc (by simpa using hx)⟩

theorem dedupFirstAux_congr_seen :
    ∀ (l seen1 seen2 : List String), (∀ x, x ∈ seen1 ↔ x ∈ seen2) →
      dedupFirstAux seen1 l = dedupFirstAux seen2 l := by
  intro l
  induction l with
  | nil => intro seen1 seen2 _; rfl
  | cons c rest ih =>
      intro seen1 seen2 h
      unfold dedupFirstAux
      by_cases hc : c ∈ seen1
      · rw [if_pos hc, if_pos ((h c).mp hc)]
        exact ih seen1 seen2 h
      · rw [if_neg hc, if_neg (fun hx => hc ((h c).mpr hx))]
        refine congrArg _ (ih _ _ ?_)
        intro x
        simp only [List.mem_append, List.mem_singleton, h x]

theorem dedupFirstAux_nil (seen : List String) : dedupFirstAux seen [] = [] := rfl

theorem dedupFirstAux_cons (seen : List String) (c : String) (rest : List String) :
    dedupFirstAux seen (c :: rest)
      = if c ∈ seen then dedupFirstAux seen rest
        else c :: dedupFirstAux (seen ++ [c]) rest := rfl

theorem dedupFirstAux_append :
    ∀ (u v seen : List String),
      dedupFirstAux seen (u ++ v)
        = dedupFirstAux seen u ++ dedupFirstAux (seen ++ u) v := by
  intro u
  induction u with
  | nil =>
      intro v seen
      rw [List.nil_append, dedupFirstAux_nil, List.nil_append, List.append_nil]
  | cons c u' ih =>
      intro v seen
      rw [List.cons_append, dedupFirstAux_cons, dedupFirstAux_cons]
      by_cases hc : c ∈ seen
      · rw [if_pos hc, if_pos hc, ih]
        refine congrArg _ (dedupFirstAux_congr_seen _ _ _ ?_)
        intro x
        simp only [List.mem_append, List.mem_cons]
        constructor
        · rintro (h | h)
          · exact Or.inl h
          · exact Or.inr (Or.inr h)
        · rintro (h | h | h)
          · exact Or.inl h
          · subst h; exact Or.inl hc
          · exact Or.inr h
      · rw [if_neg hc, if_neg hc, ih, List.cons_append]
        refine congrArg _ (congrArg _ (dedupFirstAux_congr_seen _ _ _ ?_))
        intro x
        simp only [List.mem_append, List.mem_singleton, List.mem_cons]
        tauto

theorem dedupFirstAux_idem :
    ∀ (l s t : List String), (∀ x ∈ l, x ∈ t → x ∈ s) →
      dedupFirstAux s (dedupFirstAux t l) = dedupFirstAux s l := by
  intro l
  induction l with
  | nil => intro s t _; rfl
  | cons c rest ih =>
      intro s t h
      rw [dedupFirstAux_cons t c rest, dedupFirstAux_cons s c rest]
      by_cases hct : c ∈ t
      · rw [if_pos hct]
        have hcs : c ∈ s := h c (List.mem_cons_self c rest) hct
        rw [if_pos hcs]
        exact ih s t (fun x hx => h x (List.mem_cons_of_mem c hx))
      · rw [if_neg hct]
        by_cases hcs : c ∈ s
        · rw [dedupFirstAux_cons, if_pos hcs, if_pos hcs]
          refine ih s (t ++ [c]) ?_
          intro x hx hxt
          rcases List.mem_append.mp hxt with h1 | h1
          · exact h x (List.mem_cons_of_mem c hx) h1
          · rw [List.mem_singleton.mp h1]; exact hcs
        · rw [dedupFirstAux_cons, if_neg hcs, if_neg hcs]
          refine congrArg _ (ih (s ++ [c]) (t ++ [c]) ?_)
          intro x hx hxt
          rcases List.mem_append.mp hxt with h1 | h1
          · exact List.mem_append_left _ (h x (List.mem_cons_of_mem c hx) h1)
          · exact List.mem_append_right _ h1

theorem dedupFirstAux_nodup : ∀ (l seen : List String), (dedupFirstAux seen l).Nodup := by
  intro l
  induction l with
  | nil => intro seen; simp [dedupFirstAux_nil]
  | cons c rest ih =>
      intro seen
      rw [dedupFirstAux_cons]
      split
      · exact ih seen
      · rw [List.nodup_cons]
        refine ⟨?_, ih (seen ++ [c])⟩
        intro hc
        have := (mem_dedupFirstAux c rest (seen ++ [c])).mp hc
        exact this.2 (List.mem_append_right _ (List.mem_singleton.mpr rfl))

theorem foldl_planStep (skipped : List String) :
    ∀ (l acc : List String),
      l.foldl (planStep skipped) acc
        = acc ++ dedupFirstAux acc (l.filter (fun c => decide (c ∉ skipped))) := by
  intro l
  induction l with
  | nil => intro acc; simp [dedupFirstAux_nil]
  | cons c rest ih =>
      intro acc
      rw [List.foldl_cons]
      by_cases hsk : c ∈ skipped
      · have hstep : planStep skipped acc c = acc := by
          unfold planStep
          rw [if_neg (by tauto)]
        rw [hstep, ih, List.filter_cons]
        simp [hsk]
      · by_cases hacc : c ∈ acc
        · have hstep : planStep skipped acc c = acc := by
            unfold planStep
            rw [if_neg (by tauto)]
          rw [hstep, ih, List.filter_cons]
          simp [hsk, dedupFirstAux_cons, hacc]
        · have hstep : planStep skipped acc c = acc ++ [c] := by
            unfold planStep
            rw [if_pos ⟨hacc, hsk⟩]
          rw [hstep, ih, List.filter_cons]
          simp [hsk, dedupFirstAux_cons, hacc, List.append_assoc]

/-- C1 (amended): the apply plan equals the first-occurrence de-duplication,
with skipped commits removed, of `final_commits` with the missing
originally-requested commits APPENDED (not prepended); consequently the plan
has no duplicates and no skipped commit. -/
theorem apply_plan_spec (initial final skipped : List String) :
    apply_plan initial final skipped
        = dedupFirst ((final ++ initial).filter (fun c => decide (c ∉ skipped))) ∧
      (apply_plan initial final skipped).Nodup ∧
      ∀ c ∈ apply_plan initial final skipped, c ∉ skipped := by
  have hmain : apply_plan initial final skipped
      = dedupFirst ((final ++ initial).filter (fun c => decide (c ∉ skipped))) := by
    unfold apply_plan dedupPlan apply_plan_final dedupFirst
    rw [foldl_planStep, foldl_planStep, List.nil_append, List.filter_append,
      List.filter_append]
    have hself : (dedupFirstAux final
          (initial.filter (fun c => decide (c ∉ skipped)))).filter
            (fun c => decide (c ∉ skipped))
        = dedupFirstAux final (initial.filter (fun c => decide (c ∉ skipped))) := by
      rw [List.filter_eq_self]
      intro a ha
      have h1 := (mem_dedupFirstAux a _ final).mp ha
      exact (List.mem_filter.mp h1.1).2
    rw [hself, dedupFirstAux_append, dedupFirstAux_append]
    simp only [List.nil_append]
    congr 1
    refine dedupFirstAux_idem _ _ _ ?_
    intro x hx hxt
    exact List.mem_filter.mpr ⟨hxt, (List.mem_filter.mp hx).2⟩
  refine ⟨hmain, ?_, ?_⟩
  · rw [hmain]
    exact dedupFirstAux_nodup _ _
  · intro c hc
    rw [hmain] at hc
    have h1 := (mem_dedupFirstAux c _ []).mp hc
    have h2 := (List.mem_filter.mp h1.1).2
    simpa using h2

/-- Counterexample to C1 as stated: the code APPENDS missing requested
commits (source line 1148) instead of prepending them, so for
`initial = [A]`, `final = [B]` the plan is `[B, A]`, not the claimed
`[A, B]`. -/
theorem apply_plan_cex :
    apply_plan ["A"] ["B"] [] = ["B", "A"] ∧ claimPlan ["A"] ["B"] [] = ["A", "B"] ∧
      apply_plan ["A"] ["B"] [] ≠ claimPlan ["A"] ["B"] [] := by decide

/-- Python `str.splitlines` for newline-terminated git output: split on the
newline character, with no trailing empty entry. -/
def pySplitLines (s : String) : List String :=
  if s = "" then []
  else
    let parts := s.split (fun ch => ch = '\n')
    if s.endsWith "\n" then parts.dropLast else parts

/-- Python `str.split()` with no argument: split on whitespace runs,
dropping empty pieces. -/
def pySplitWs (s : String) : List String :=
  (s.split (fun ch => ch.isWhitespace)).filter (fun t => t ≠ "")

/-- Oracle environment for `get_blame_and_grep_dependencies`: the values the
function reads from git and from its regex scans.  `symbols` stands for the
`important_symbols` set extracted by the per-language regex patterns (source
lines 640-731) and `isident` for Python's `str.isidentifier`; the no-self
property below holds for every choice of these. -/
structure DepsEnv where
  file_content : String
  blame_output : String
  symbols : List String
  isident : String → Bool
  grep_out : String → String
  includes : List String
  include_commit : String → Option String
  rename_output : String

/-- The dependency cache: `dep_cache[f"{commit}:{file}"]`, keyed here by the
pair (the source serializes the pair as `commit:file`; commit hashes contain
no colon, making the encoding injective). -/
def DepCache : Type := List ((String × String) × List String)

def lookupCache (c : DepCache) (k : String × String) : Option (List String) :=
  (List.find? (fun e => e.1 = k) c).map (fun e => e.2)

def insertCache (c : DepCache) (k : String × String) (v : List String) : DepCache :=
  (k, v) :: c

/-- `get_blame_and_grep_dependencies` (source lines 597-776).  A Python set
is modelled by the list of elements added to it, compared by membership (the
order of `list(suspects)` is arbitrary in the source). -/
def get_blame_and_grep_dependencies (env : DepsEnv) (commit file : String)
    (dep_cache : DepCache) : List String × DepCache :=
  match lookupCache dep_cache (commit, file) with
  | some cached => (cached, dep_cache)
  | none =>
      if env.file_content = "" then ([], dep_cache)
      else
        let blame_commits := (pySplitLines env.blame_output).filterMap (fun line =>
          if line ≠ "" ∧ pySplitWs line ≠ [] ∧ ((pySplitWs line).headD "").length = 40 then
            some ((pySplitWs line).headD "")
          else none)
        let grep_commits :=
          (env.symbols.filter (fun s => decide (3 ≤ s.length) && env.isident s)).bind
            (fun s => if env.grep_out s = "" then [] else pySplitLines (env.grep_out s))
        let include_commits := env.includes.filterMap env.include_commit
        let rename_commits :=
          if env.rename_output = "" then []
          else (pySplitLines env.rename_output).filter (fun l => decide (l.length = 40))
        let suspects := blame_commits ++ grep_commits ++ include_commits ++ rename_commits
        let suspects_list := suspects.filter (fun s => decide (s ≠ commit))
        (suspects_list, insertCache dep_cache (commit, file) suspects_list)

/-- Invariant of the dependency cache: no stored list contains its own
originating commit. -/
def DepCacheInv (c : DepCache) : Prop :=
  ∀ cm f l, lookupCache c (cm, f) = some l → cm ∉ l

theorem filter_ne_not_mem (commit : String) (sus : List String) :
    commit ∉ sus.filter (fun s => decide (s ≠ commit)) := by
  intro hc
  have h2 := (List.mem_filter.mp hc).2
  simp at h2

theorem insertCache_inv (dc : DepCache) (commit file : String) (sus : List String)
    (hinv : DepCacheInv dc) :
    DepCacheInv (insertCache dc (commit, file)
      (sus.filter (fun s => decide (s ≠ commit)))) := by
  intro cm f l hlk
  unfold lookupCache insertCache at hlk
  by_cases hk : (commit, file) = (cm, f)
  · have hcm : commit = cm := by
      have := congrArg Prod.fst hk
      simpa using this
    subst hcm
    rw [List.find?_cons_of_pos _ (by simp [hk])] at hlk
    simp only [Option.map_some'] at hlk
    rw [← Option.some_inj.mp hlk]
    exact filter_ne_not_mem commit sus
  · rw [List.find?_cons_of_neg _ (by simp [hk])] at hlk
    exact hinv cm f l hlk

/-- C4: the dependency list never contains the originating commit, and the
cache keeps that property (the cache-hit path returns a stored list, which
the invariant covers). -/
theorem deps_no_self (env : DepsEnv) (commit file : String) (dep_cache : DepCache)
    (hinv : DepCacheInv dep_cache) :
    commit ∉ (get_blame_and_grep_dependencies env commit file dep_cache).1 ∧
      DepCacheInv (get_blame_and_grep_dependencies env commit file dep_cache).2 := by
  unfold get_blame_and_grep_dependencies
  cases hl : lookupCache dep_cache (commit, file) with
  | some cached =>
      exact ⟨hinv commit file cached hl, hinv⟩
  | none =>
      by_cases hfc : env.file_content = ""
      · rw [if_pos hfc]
        exact ⟨List.not_mem_nil commit, hinv⟩
      · rw [if_neg hfc]
        dsimp only
        exact ⟨filter_ne_not_mem commit _, insertCache_inv dep_cache commit file _ hinv⟩

/-- Concrete environment for the C4 witness. -/
def depsEnvW : DepsEnv where
  file_content := "import os"
  blame_output := "c1 line\nc2 line"
  symbols := ["os"]
  isident := fun _ => true
  grep_out := fun _ => "c1\nc3"
  includes := ["os"]
  include_commit := fun _ => some "c1"
  rename_output := ""

/-- Witness for C4 at a concrete input with the empty cache. -/
theorem deps_no_self_witness :
    DepCacheInv ([] : DepCache) ∧
      ("c1" ∉ (get_blame_and_grep_dependencies depsEnvW "c1" "f.py" []).1 ∧
        DepCacheInv (get_blame_and_grep_dependencies depsEnvW "c1" "f.py" []).2) := by
  have h0 : DepCacheInv ([] : DepCache) := by
    intro cm f l hlk
    simp [lookupCache, List.find?] at hlk
  exact ⟨h0, deps_no_self depsEnvW "c1" "f.py" [] h0⟩

/-- Python `int(...)` on a trimmed decimal literal: optional sign, ASCII
digits with single interior underscores; `none` models `ValueError`. -/
def digitsOk : Bool → List Char → Bool
  | needDigit, [] => !needDigit
  | needDigit, c :: rest =>
      if c = '_' then (if needDigit then false else digitsOk true rest)
      else c.isDigit && digitsOk false rest

def digitsVal (ds : List Char) : Nat :=
  (ds.filter (fun c => c ≠ '_')).foldl (fun n c => n * 10 + (c.toNat - 48)) 0

def pyParseInt (s : String) : Option Int :=
  let cs := ((s.toList.dropWhile Char.isWhitespace).reverse.dropWhile
    Char.isWhitespace).reverse
  let signed : Int × List Char :=
    match cs with
    | '+' :: rest => (1, rest)
    | '-' :: rest => (-1, rest)
    | rest => (1, rest)
  if signed.2 = [] then none
  else if digitsOk true signed.2 then some (signed.1 * digitsVal signed.2) else none

/-- `select_option` (source lines 220-236).  `inp` is the string read from
`input(prompt)`; the result is `none` exactly when Python would raise
(`options[0]` on an empty list). -/
def select_option (auto_mode : Bool) (options : List String) (inp : String) :
    Option String :=
  if auto_mode then options.head?
  else
    match pyParseInt inp with
    | none => options.head?
    | some idx =>
        if idx < 1 ∨ idx > (options.length : Int) then options.head?
        else options.get? (idx - 1).toNat

/-- C10: on a non-empty options list `select_option` never raises and returns
an element of the list; automatic mode and invalid interactive input (parse
failure or out-of-range index) return the first option. -/
theorem select_option_spec (auto_mode : Bool) (options : List String) (inp : String)
    (hne : options ≠ []) :
    (∃ x, select_option auto_mode options inp = some x ∧ x ∈ options) ∧
      (auto_mode = true → select_option auto_mode options inp = options.head?) ∧
      (auto_mode = false → pyParseInt inp = none →
        select_option auto_mode options inp = options.head?) ∧
      (auto_mode = false → ∀ n, pyParseInt inp = some n →
        (n < 1 ∨ (options.length : Int) < n) →
        select_option auto_mode options inp = options.head?) := by
  have hhead : ∃ y, options.head? = some y ∧ y ∈ options := by
    cases options with
    | nil => exact absurd rfl hne
    | cons a l => exact ⟨a, rfl, List.mem_cons_self a l⟩
  refine ⟨?_, ?_, ?_, ?_⟩
  · unfold select_option
    split
    · exact hhead
    · cases hp : pyParseInt inp with
      | none => exact hhead
      | some idx =>
          dsimp only
          split
          · exact hhead
          · rename_i hrange
            push_neg at hrange
            have hlt : (idx - 1).toNat < options.length := by omega
            refine ⟨options.get ⟨(idx - 1).toNat, hlt⟩, ?_, List.get_mem options _ hlt⟩
            rw [List.get?_eq_get hlt]
  · intro ha
    unfold select_option
    rw [if_pos ha]
  · intro ha hp
    unfold select_option
    rw [if_neg (by simp [ha]), hp]
  · intro ha n hp hr
    unfold select_option
    rw [if_neg (by simp [ha]), hp]
    dsimp only
    rw [if_pos (by omega)]

/-- Witness for C10: options `["a", "b"]` with input `"2"` select `"b"`. -/
theorem select_option_spec_witness :
    (["a", "b"] : List String) ≠ [] ∧
      ((∃ x, select_option false ["a", "b"] "2" = some x ∧ x ∈ ["a", "b"]) ∧
        (false = true → select_option false ["a", "b"] "2" = (["a", "b"] : List String).head?) ∧
        (false = false → pyParseInt "2" = none →
          select_option false ["a", "b"] "2" = (["a", "b"] : List String).head?) ∧
        (false = false → ∀ n, pyParseInt "2" = some n →
          (n < 1 ∨ ((["a", "b"] : List String).length : Int) < n) →
          select_option false ["a", "b"] "2" = (["a", "b"] : List String).head?)) :=
  ⟨by decide, select_option_spec false ["a", "b"] "2" (by decide)⟩

/-- Python `str.strip()`: drop leading and trailing whitespace. -/
def pyStripS (s : String) : String :=
  String.mk (((s.toList.dropWhile Char.isWhitespace).reverse.dropWhile
    Char.isWhitespace).reverse)

/-- Python substring test on `String`. -/
def substrS (needle hay : String) : Bool := substrB needle.toList hay.toList

/-- Python `str.replace`, scanning left to right and replacing every
non-overlapping occurrence; the `Nat` argument is fuel bounded by the input
length. -/
def pyReplaceAux (pat rep : List Char) : Nat → List Char → List Char
  | 0, l => l
  | _ + 1, [] => []
  | fuel + 1, c :: rest =>
      if pat ≠ [] ∧ startsList pat (c :: rest) = true then
        rep ++ pyReplaceAux pat rep fuel ((c :: rest).drop pat.length)
      else c :: pyReplaceAux pat rep fuel rest

def pyReplaceS (s pat rep : String) : String :=
  String.mk (pyReplaceAux pat.toList rep.toList s.toList.length s.toList)

/-- Outcome of one `subprocess.run` invocation. -/
inductive ExecRes
  | ok (stdout : String)
  | fail (stdout : String)
  | exc

structure RunCfg where
  max_retries : Nat
  retry_delay : Nat

/-- The remote-qualified special case of `run` (source lines 183-184). -/
def remoteCase (rn : Option String) (cmd : String) : Bool :=
  match rn with
  | some r =>
      decide (r ≠ "") && substrS (r ++ "/") cmd &&
        ((substrS "git log" cmd && substrS ".." cmd) ||
          (substrS "git show" cmd && substrS ":" cmd))
  | none => false

/-- `run` (source lines 181-218).  `exec` is an oracle giving the outcome of
the n-th subprocess invocation; the second component of the result counts
invocations performed.  `time.sleep(retry_delay)` is wall-clock behavior with
no effect on the returned value and is not modelled.  The `Nat` fuel bounds
the recursion depth and is unreachable under the fuel hypotheses of the
theorems below. -/
def run (cfg : RunCfg) (rn : Option String) (exec : Nat → String → ExecRes) :
    Nat → String → Bool → Nat → Bool → Nat → Option String × Nat
  | 0, _, _, _, _, k => (some "", k)
  | fuel + 1, cmd, capture, retry, allow_fail, k =>
      if remoteCase rn cmd = true then
        match exec k cmd with
        | ExecRes.ok out => ((if capture then some (pyStripS out) else none), k + 1)
        | ExecRes.fail _ =>
            run cfg rn exec fuel (pyReplaceS cmd (rn.getD "" ++ "/") "") capture retry
              allow_fail (k + 1)
        | ExecRes.exc =>
            run cfg rn exec fuel (pyReplaceS cmd (rn.getD "" ++ "/") "") capture retry
              allow_fail (k + 1)
      else
        match exec k cmd with
        | ExecRes.ok out => ((if capture then some (pyStripS out) else none), k + 1)
        | ExecRes.fail out =>
            if allow_fail then (some "", k + 1)
            else if retry < cfg.max_retries then
              run cfg rn exec fuel cmd capture (retry + 1) allow_fail (k + 1)
            else ((if capture then some (pyStripS out) else none), k + 1)
        | ExecRes.exc =>
            if allow_fail then (some "", k + 1)
            else if retry < cfg.max_retries then
              run cfg rn exec fuel cmd capture (retry + 1) allow_fail (k + 1)
            else (some "", k + 1)

theorem run_exc_empty (cfg : RunCfg) (rn : Option String)
    (exec : Nat → String → ExecRes) (hexc : ∀ j c, exec j c = ExecRes.exc) :
    ∀ (fuel : Nat) (cmd : String) (capture : Bool) (retry : Nat)
      (allow_fail : Bool) (k : Nat),
      (run cfg rn exec fuel cmd capture retry allow_fail k).1 = some "" := by
  intro fuel
  induction fuel with
  | zero => intro cmd capture retry allow_fail k; rfl
  | succ fuel ih =>
      intro cmd capture retry allow_fail k
      rw [run]
      by_cases hr : remoteCase rn cmd = true
      · rw [if_pos hr, hexc k cmd]
        exact ih _ _ _ _ _
      · rw [if_neg hr, hexc k cmd]
        dsimp only
        split
        · rfl
        · split
          · exact ih _ _ _ _ _
          · rfl

theorem run_nonremote_spec (cfg : RunCfg) (rn : Option String)
    (exec : Nat → String → ExecRes) :
    ∀ (fuel : Nat) (cmd : String) (capture : Bool) (retry : Nat)
      (allow_fail : Bool) (k : Nat),
      cfg.max_retries - retry + 2 ≤ fuel → remoteCase rn cmd = false →
      ((run cfg rn exec fuel cmd capture retry allow_fail k).2
          ≤ k + (cfg.max_retries - retry) + 1) ∧
        (allow_fail = true →
          (exec k cmd = ExecRes.exc ∨ ∃ out, exec k cmd = ExecRes.fail out) →
          run cfg rn exec fuel cmd capture retry allow_fail k = (some "", k + 1)) := by
  intro fuel
  induction fuel with
  | zero => intro cmd capture retry allow_fail k hfuel; omega
  | succ fuel ih =>
      intro cmd capture retry allow_fail k hfuel hnr
      rw [run, if_neg (by rw [hnr]; simp)]
      cases hexec : exec k cmd with
      | ok out =>
          dsimp only
          constructor
          · omega
          · intro _ hf
            rcases hf with hf | ⟨out', hf⟩ <;> exact absurd hf (by simp)
      | fail out =>
          dsimp only
          constructor
          · split
            · omega
            · split
              · rename_i hret
                have := (ih cmd capture (retry + 1) allow_fail (k + 1)
                  (by omega) hnr).1
                omega
              · omega
          · intro haf _
            rw [if_pos haf]
      | exc =>
          dsimp only
          constructor
          · split
            · omega
            · split
              · rename_i hret
                have := (ih cmd capture (retry + 1) allow_fail (k + 1)
                  (by omega) hnr).1
                omega
              · omega
          · intro haf _
            rw [if_pos haf]

/-- C6 (amended): for commands outside the remote-to-local fallback, `run`
performs at most `max_retries` retries (so at most `max_retries + 1`
invocations), and with `allow_fail=True` a failure or exception returns the
empty string immediately after the single invocation; when every invocation
raises, the caller still receives an empty result rather than an exception. -/
theorem run_spec (cfg : RunCfg) (rn : Option String) (exec : Nat → String → ExecRes)
    (fuel : Nat) (cmd : String) (capture : Bool) (retry : Nat) (allow_fail : Bool)
    (k : Nat) (hfuel : cfg.max_retries - retry + 2 ≤ fuel) :
    (remoteCase rn cmd = false →
        (run cfg rn exec fuel cmd capture retry allow_fail k).2
          ≤ k + (cfg.max_retries - retry) + 1) ∧
      (remoteCase rn cmd = false → allow_fail = true →
        (exec k cmd = ExecRes.exc ∨ ∃ out, exec k cmd = ExecRes.fail out) →
        run cfg rn exec fuel cmd capture retry allow_fail k = (some "", k + 1)) ∧
      ((∀ j c, exec j c = ExecRes.exc) →
        (run cfg rn exec fuel cmd capture retry allow_fail k).1 = some "") :=
  ⟨fun hnr => (run_nonremote_spec cfg rn exec fuel cmd capture retry allow_fail k
      hfuel hnr).1,
    fun hnr haf hf => (run_nonremote_spec cfg rn exec fuel cmd capture retry
      allow_fail k hfuel hnr).2 haf hf,
    fun hexc => run_exc_empty cfg rn exec hexc fuel cmd capture retry allow_fail k⟩

/-- Oracle for the C6 counterexample: the first invocation fails, later ones
succeed with output `X`. -/
def runExecCex : Nat → String → ExecRes
  | 0, _ => ExecRes.fail "err"
  | _ + 1, _ => ExecRes.ok "X"

/-- Counterexample to C6 as stated: with a remote configured, a failing
remote-qualified `git log` command is re-executed with the remote prefix
stripped even though `allow_fail=True`, and the local output is returned:
the failure is neither returned immediately nor as the empty string. -/
theorem run_allow_fail_cex :
    run ⟨3, 2⟩ (some "origin") runExecCex 10 "git log origin/a..b" true 0 true 0
        = (some "X", 2) ∧
      ((some "X", 2) : Option String × Nat) ≠ (some "", 1) := by
  constructor
  · decide
  · decide

/-- Witness for C6 at concrete inputs (no remote, one failing attempt with
`allow_fail=True`). -/
theorem run_spec_witness :
    (3 : Nat) - 0 + 2 ≤ 10 ∧
      ((remoteCase none "git status" = false →
          (run ⟨3, 2⟩ none runExecCex 10 "git status" true 0 true 0).2 ≤ 0 + (3 - 0) + 1) ∧
        (remoteCase none "git status" = false → true = true →
          (runExecCex 0 "git status" = ExecRes.exc ∨
            ∃ out, runExecCex 0 "git status" = ExecRes.fail out) →
          run ⟨3, 2⟩ none runExecCex 10 "git status" true 0 true 0 = (some "", 0 + 1)) ∧
        ((∀ j c, runExecCex j c = ExecRes.exc) →
          (run ⟨3, 2⟩ none runExecCex 10 "git status" true 0 true 0).1 = some "")) :=
  ⟨by decide, run_spec ⟨3, 2⟩ none runExecCex 10 "git status" true 0 true 0 (by decide)⟩

/-- The process-global analysis state of the script (source lines 27-44),
restricted to the fields the analysis and apply paths mutate.  `inputs`
models the interactive stdin stream; `exited` models `sys.exit` having been
called (after which no further code of the process runs). -/
structure AState where
  final_commits : List String
  cherry_pick_queue : List String
  analyzed_commits : List String
  applied_commits : List String
  skipped_commits : List String
  file_renames : List (String × String)
  dep_cache : DepCache
  stop_analysis : Bool
  processed_missing_files : List String
  created_files : List String
  inputs : List String
  exited : Bool

/-- Oracle environment for the analysis state machine: configuration flags
and the outcomes of the git queries it performs. -/
structure AnalyzeEnv where
  auto_mode : Bool
  dry_run : Bool
  auto_add_dependencies : Bool
  initial_commit : Option String
  initial_commits : List String
  get_commit_files : String → List String
  file_absent : String → Bool
  find_commit_adding_file : String → Option String
  find_commit_history_chain : String → String → List String
  get_last_commit_affecting_file : String → String
  deps_env : String → String → DepsEnv
  cherry_ok : String → Bool
  edit_ok : String → Bool
  recovered : String → Bool
  recovery_renames : String → List (String × String)

/-- Python `set.add` on a membership-modelled set. -/
def sinsert (l : List String) (c : String) : List String :=
  if c ∈ l then l else l ++ [c]

/-- Python `dict.get(k, d)` on an insertion-ordered association list (newest
binding first). -/
def lookupD (m : List (String × String)) (k d : String) : String :=
  match List.find? (fun e => e.1 = k) m with
  | some e => e.2
  | none => d

/-- Consume one line of interactive input (`input(...)`). -/
def popInput (s : AState) : String × AState :=
  (s.inputs.headD "", { s with inputs := s.inputs.tail })

/-- A `select_option` call as the analysis code performs it: automatic mode
reads no input, interactive mode consumes one input line.  The options lists
at the call sites are non-empty literals, so the `Option` is always `some`;
`getD` unwraps it. -/
def do_select (env : AnalyzeEnv) (options : List String) (s : AState) :
    String × AState :=
  if env.auto_mode then ((select_option true options "").getD "", s)
  else
    let p := popInput s
    ((select_option false options p.1).getD "", p.2)

/-- `add_commit_once` (source lines 846-850). -/
def add_commit_once (c : String) (s : AState) : AState :=
  { s with
    final_commits :=
      if c ∈ s.final_commits then s.final_commits else s.final_commits ++ [c]
    cherry_pick_queue :=
      if c ∈ s.cherry_pick_queue then s.cherry_pick_queue
      else s.cherry_pick_queue ++ [c] }

/-- `count_unique_pending_commits` (source lines 852-856): the cardinality of
`set(final_commits + cherry_pick_queue)`, plus one when the global
`initial_commit` is truthy and not in that set. -/
def count_unique_pending_commits (env : AnalyzeEnv) (s : AState) : Nat :=
  let u := dedupFirst (s.final_commits ++ s.cherry_pick_queue)
  match env.initial_commit with
  | some ic => if ic ≠ "" ∧ ic ∉ u then u.length + 1 else u.length
  | none => u.length

/-- Per-commit body of the apply loop of `apply_commits_in_order` (source
lines 1182-1225): skip already-applied and skipped commits, mark success, or
enter error recovery. -/
def applyStep (env : AnalyzeEnv) (c : String) (s : AState) : AState :=
  if s.exited then s
  else if c ∈ s.applied_commits then s
  else if c ∈ s.skipped_commits then s
  else if env.cherry_ok c then
    { s with applied_commits := sinsert s.applied_commits c }
  else
    -- `handle_cherry_pick_error` (source lines 1260-1423), abstracted: its
    -- recovery paths may add `c` to `applied_commits` (lines 1271, 1282,
    -- 1339, 1365, 1398, 1408) and record rename overrides (line 1377 and
    -- `ask_file_renames_from_errors`); it never modifies `final_commits`,
    -- `analyzed_commits` or `skipped_commits`.
    { s with
      applied_commits :=
        if env.recovered c then sinsert s.applied_commits c else s.applied_commits
      file_renames := env.recovery_renames c ++ s.file_renames }

/-- `apply_commits_in_order` (source lines 1144-1248): extend
`final_commits` with the missing requested commits, build the de-duplicated
plan, and (unless in dry-run mode) apply each commit of the plan. -/
def apply_commits_in_order (env : AnalyzeEnv) (s : AState) : AState :=
  let final' := apply_plan_final env.initial_commits s.final_commits s.skipped_commits
  let plan := dedupPlan final' s.skipped_commits
  let s1 := { s with final_commits := final' }
  if env.dry_run then s1
  else plan.foldl (fun st c => applyStep env c st) s1

/-- `ask_to_proceed` (source lines 1103-1142): append the missing requested
commits to `final_commits`, then either apply (automatic mode or the
`Continuar` choice) or return (`Cancelar` / `Guardar`); every branch of the
`while True` loop breaks after one pass. -/
def ask_to_proceed (env : AnalyzeEnv) (s : AState) : AState :=
  if s.exited then s
  else
    let final' := env.initial_commits.foldl
      (fun acc c => if c ∈ acc then acc else acc ++ [c]) s.final_commits
    let s1 := { s with final_commits := final' }
    if env.auto_mode then apply_commits_in_order env s1
    else
      let sel := do_select env
        ["Continuar con el cherry-pick (" ++ toString (dedupFirst final').length ++ ")",
          "Cancelar y revisar nuevamente",
          "Guardar lista y salir sin aplicar"] s1
      if sel.1.startsWith "Continuar" then apply_commits_in_order env sel.2
      else sel.2

/-- `ask_to_search_file` (source lines 363-395).  The `Aplicar` branch sets
`stopFlag`, runs `ask_to_proceed` and exits the process (`sys.exit(0)`); the
final branch exits with status 1. -/
def ask_to_search_file (env : AnalyzeEnv) (_file_path : String) (s : AState) :
    Bool × AState :=
  if env.auto_mode then (true, s)
  else
    let sel := do_select env
      ["Buscar el archivo en commits anteriores",
        "Ignorar archivo y continuar con el cherry-pick",
        "Aplicar directamente los commits agregados hasta ahora",
        "Cancelar operación"] s
    if sel.1.startsWith "Buscar" then (true, sel.2)
    else if sel.1.startsWith "Ignorar" then (false, sel.2)
    else if sel.1.startsWith "Aplicar" then
      if sel.2.final_commits.length > 0 then
        let s3 := ask_to_proceed env { sel.2 with stop_analysis := true }
        (false, { s3 with exited := true })
      else (false, sel.2)
    else (false, { sel.2 with exited := true })

/-- Control-flow signal of one iteration of the per-file loop of
`analyze_commit`: fall through to the rest of the iteration, `continue` to
the next file, or `return` from the function (which also covers a pending
`sys.exit`). -/
inductive FlowSig
  | proceed
  | skipFile
  | exitFn
deriving DecidableEq

/-- The missing-file block of `analyze_commit` (source lines 897-952),
entered when the locally-mapped path does not exist in the working tree. -/
def processMissing (env : AnalyzeEnv) (commit file actual_file : String)
    (s : AState) : AState × FlowSig :=
  let key := file ++ ":" ++ commit
  if key ∈ s.processed_missing_files then (s, FlowSig.skipFile)
  else
    let s1 := { s with processed_missing_files := sinsert s.processed_missing_files key }
    let ask := ask_to_search_file env actual_file s1
    if ask.2.exited then (ask.2, FlowSig.exitFn)
    else if ask.1 = false then (ask.2, FlowSig.skipFile)
    else
      let s2 := ask.2
      match env.find_commit_adding_file file with
      | some adding_commit =>
          let chain := env.find_commit_history_chain file commit
          if chain ≠ [] ∧ chain.length > 1 then
            let sel := do_select env
              ["Agregar toda la cadena de " ++ toString chain.length
                  ++ " commits relacionados con este archivo",
                "Agregar solo el commit que creó el archivo ("
                  ++ adding_commit.take 8 ++ ")",
                "Continuar con el cherry-pick ("
                  ++ toString (count_unique_pending_commits env s2) ++ ")"] s2
            if sel.1.startsWith "Agregar toda" then
              let s4 := chain.foldl (fun st c => add_commit_once c st) sel.2
              let s5 := { s4 with created_files := sinsert s4.created_files actual_file }
              if s5.stop_analysis then (s5, FlowSig.exitFn) else (s5, FlowSig.proceed)
            else if sel.1.startsWith "Agregar solo" then
              let s4 := add_commit_once adding_commit sel.2
              let s5 := { s4 with created_files := sinsert s4.created_files actual_file }
              if s5.stop_analysis then (s5, FlowSig.exitFn) else (s5, FlowSig.proceed)
            else ({ sel.2 with stop_analysis := true }, FlowSig.exitFn)
          else
            let sel := do_select env
              ["Agregar commit que creó el archivo " ++ adding_commit.take 8,
                "Continuar con el cherry-pick ("
                  ++ toString (count_unique_pending_commits env s2) ++ ")"] s2
            if sel.1.startsWith "Agregar" then
              let s4 := add_commit_once adding_commit sel.2
              let s5 := { s4 with created_files := sinsert s4.created_files actual_file }
              if s5.stop_analysis then (s5, FlowSig.exitFn) else (s5, FlowSig.proceed)
            else if sel.1.startsWith "Continuar" then
              ({ sel.2 with stop_analysis := true }, FlowSig.exitFn)
            else (sel.2, FlowSig.proceed)
      | none =>
          let sel := do_select env
            ["Especificar un archivo local equivalente",
              "Continuar con el cherry-pick ("
                ++ toString (count_unique_pending_commits env s2) ++ ")",
              "Cancelar análisis"] s2
          if sel.1.startsWith "Especificar" then
            let inp := popInput sel.2
            ({ inp.2 with
                file_renames := (actual_file, pyStripS inp.1) :: inp.2.file_renames },
              FlowSig.proceed)
          else if sel.1.startsWith "Cancelar" then
            ({ sel.2 with stop_analysis := true }, FlowSig.exitFn)
          else (sel.2, FlowSig.proceed)

/-- The dependency-suggestion loop of `analyze_commit` (source lines
971-988); `rec` is the recursive `analyze_commit` call. -/
def depLoop (env : AnalyzeEnv) (rec : String → AState → AState) (commit : String) :
    List String → AState → AState × FlowSig
  | [], s => (s, FlowSig.proceed)
  | dep :: rest, s =>
      if env.auto_add_dependencies then
        depLoop env rec commit rest (add_commit_once dep s)
      else
        let sel := do_select env
          ["Agregar commit faltante a la lista de commits a aplicar " ++ dep,
            "Continuar con el cherry-pick ("
              ++ toString (count_unique_pending_commits env s) ++ ")"] s
        if sel.1.startsWith "Agregar" then
          let s2 := rec dep (add_commit_once dep sel.2)
          if s2.stop_analysis ∨ s2.exited then (s2, FlowSig.exitFn)
          else depLoop env rec commit rest s2
        else if sel.1.startsWith "Continuar" then
          ({ sel.2 with stop_analysis := true }, FlowSig.exitFn)
        else
          if sel.2.stop_analysis then (sel.2, FlowSig.exitFn)
          else depLoop env rec commit rest sel.2

/-- Dependency-extraction step of a `processFile` iteration (source lines
967-988): the stop check of line 967, then `get_blame_and_grep_dependencies`
and the suggestion loop over the relevant dependencies. -/
def processFileDeps (env : AnalyzeEnv) (rec : String → AState → AState)
    (commit actual_file : String) (s2 : AState) : AState × FlowSig :=
  if s2.stop_analysis then (s2, FlowSig.exitFn)
  else
    let dres := get_blame_and_grep_dependencies
      (env.deps_env commit actual_file) commit actual_file s2.dep_cache
    let s3 := { s2 with dep_cache := dres.2 }
    let relevant := dres.1.filter (fun d =>
      decide (d ∉ s3.analyzed_commits) && decide (d ∉ s3.applied_commits)
        && decide (d ≠ commit))
    depLoop env rec commit relevant s3

/-- The last-touching-commit suggestion of a `processFile` iteration (source
lines 953-966). -/
def processFileLast (env : AnalyzeEnv) (rec : String → AState → AState)
    (commit actual_file : String) (s1 : AState) : AState × FlowSig :=
  let last_commit := env.get_last_commit_affecting_file actual_file
  if last_commit ≠ "" ∧ last_commit ≠ commit ∧
      last_commit ∉ s1.analyzed_commits ∧ last_commit ∉ s1.applied_commits then
    let sel := do_select env
      ["Agregar commit faltante a la lista de commits a aplicar " ++ last_commit,
        "Continuar con el cherry-pick ("
          ++ toString (count_unique_pending_commits env s1) ++ ")"] s1
    if sel.1.startsWith "Agregar" then
      let s3 := rec last_commit (add_commit_once last_commit sel.2)
      if s3.stop_analysis ∨ s3.exited then (s3, FlowSig.exitFn)
      else (s3, FlowSig.proceed)
    else if sel.1.startsWith "Continuar" then
      ({ sel.2 with stop_analysis := true }, FlowSig.exitFn)
    else (sel.2, FlowSig.proceed)
  else (s1, FlowSig.proceed)

/-- Rest of a `processFile` iteration after the missing-file block (source
lines 953-988): the last-touching-commit suggestion, then the dependency
step. -/
def processFileTail (env : AnalyzeEnv) (rec : String → AState → AState)
    (commit actual_file : String) (s1 : AState) : AState × FlowSig :=
  match processFileLast env rec commit actual_file s1 with
  | (s2, FlowSig.exitFn) => (s2, FlowSig.exitFn)
  | (s2, _) => processFileDeps env rec commit actual_file s2

/-- One iteration of the per-file loop of `analyze_commit` (source lines
891-988). -/
def processFile (env : AnalyzeEnv) (rec : String → AState → AState)
    (commit file : String) (s : AState) : AState × FlowSig :=
  let actual_file := lookupD s.file_renames file file
  if actual_file ∈ s.created_files then (s, FlowSig.skipFile)
  else
    let step1 :=
      if env.file_absent actual_file then processMissing env commit file actual_file s
      else (s, FlowSig.proceed)
    match step1 with
    | (s1, FlowSig.exitFn) => (s1, FlowSig.exitFn)
    | (s1, FlowSig.skipFile) => (s1, FlowSig.skipFile)
    | (s1, FlowSig.proceed) => processFileTail env rec commit actual_file s1

/-- The per-file loop of `analyze_commit`: process files in diff order,
stopping when an iteration returns from the function (or the process has
exited). -/
def fileLoop (env : AnalyzeEnv) (rec : String → AState → AState) (commit : String) :
    List String → AState → AState
  | [], s => s
  | f :: rest, s =>
      if s.exited then s
      else
        match processFile env rec commit f s with
        | (s1, FlowSig.exitFn) => s1
        | (s1, _) => fileLoop env rec commit rest s1

/-- `analyze_commit` (source lines 872-988).  The `Nat` fuel bounds the
recursion depth (in Python it is bounded by the growth of
`analyzed_commits`); at fuel 0 the call is modelled as a no-op. -/
def analyze_commit (env : AnalyzeEnv) : Nat → String → AState → AState
  | 0, _, s => s
  | fuel + 1, commit, s =>
      if s.exited then s
      else if s.stop_analysis then s
      else if commit ∈ s.analyzed_commits ∨ commit ∈ s.applied_commits then s
      else
        let s1 := { s with
          final_commits :=
            if commit ∈ s.final_commits then s.final_commits
            else s.final_commits ++ [commit] }
        let s2 := { s1 with analyzed_commits := sinsert s1.analyzed_commits commit }
        fileLoop env (analyze_commit env fuel) commit (env.get_commit_files commit) s2

theorem do_select_stop (env : AnalyzeEnv) (opts : List String) (s : AState) :
    (do_select env opts s).2.stop_analysis = s.stop_analysis := by
  unfold do_select popInput
  split <;> rfl

theorem do_select_exited (env : AnalyzeEnv) (opts : List String) (s : AState) :
    (do_select env opts s).2.exited = s.exited := by
  unfold do_select popInput
  split <;> rfl

theorem add_commit_once_stop (c : String) (s : AState) :
    (add_commit_once c s).stop_analysis = s.stop_analysis := rfl

theorem add_commit_once_exited (c : String) (s : AState) :
    (add_commit_once c s).exited = s.exited := rfl

theorem foldl_add_commit_stop (chain : List String) :
    ∀ s : AState,
      (chain.foldl (fun st c => add_commit_once c st) s).stop_analysis
        = s.stop_analysis := by
  induction chain with
  | nil => intro s; rfl
  | cons c rest ih => intro s; rw [List.foldl_cons, ih, add_commit_once_stop]

theorem applyStep_stop (env : AnalyzeEnv) (c : String) (s : AState) :
    (applyStep env c s).stop_analysis = s.stop_analysis := by
  unfold applyStep
  split
  · rfl
  · split
    · rfl
    · split
      · rfl
      · split <;> rfl

theorem applyStep_exited (env : AnalyzeEnv) (c : String) (s : AState) :
    (applyStep env c s).exited = s.exited := by
  unfold applyStep
  split
  · rfl
  · split
    · rfl
    · split
      · rfl
      · split <;> rfl

theorem foldl_applyStep_stop (env : AnalyzeEnv) (plan : List String) :
    ∀ s : AState,
      (plan.foldl (fun st c => applyStep env c st) s).stop_analysis
        = s.stop_analysis := by
  induction plan with
  | nil => intro s; rfl
  | cons c rest ih => intro s; rw [List.foldl_cons, ih, applyStep_stop]

theorem foldl_applyStep_exited (env : AnalyzeEnv) (plan : List String) :
    ∀ s : AState,
      (plan.foldl (fun st c => applyStep env c st) s).exited = s.exited := by
  induction plan with
  | nil => intro s; rfl
  | cons c rest ih => intro s; rw [List.foldl_cons, ih, applyStep_exited]

theorem apply_commits_stop (env : AnalyzeEnv) (s : AState) :
    (apply_commits_in_order env s).stop_analysis = s.stop_analysis := by
  unfold apply_commits_in_order
  split
  · rfl
  · rw [foldl_applyStep_stop]

theorem apply_commits_exited (env : AnalyzeEnv) (s : AState) :
    (apply_commits_in_order env s).exited = s.exited := by
  unfold apply_commits_in_order
  split
  · rfl
  · rw [foldl_applyStep_exited]

theorem ask_to_proceed_stop (env : AnalyzeEnv) (s : AState) :
    (ask_to_proceed env s).stop_analysis = s.stop_analysis := by
  unfold ask_to_proceed
  split
  · rfl
  · dsimp only
    split
    · rw [apply_commits_stop]
    · split
      · rw [apply_commits_stop, do_select_stop]
      · rw [do_select_stop]

theorem ask_to_search_stop (env : AnalyzeEnv) (f : String) (s : AState) :
    (ask_to_search_file env f s).2.stop_analysis = s.stop_analysis ∨
      (ask_to_search_file env f s).2.exited = true := by
  unfold ask_to_search_file
  split
  · exact Or.inl rfl
  · dsimp only
    split
    · exact Or.inl (do_select_stop _ _ _)
    · split
      · exact Or.inl (do_select_stop _ _ _)
      · split
        · split
          · exact Or.inr rfl
          · exact Or.inl (do_select_stop _ _ _)
        · exact Or.inr rfl


theorem popInput_stop (s : AState) : (popInput s).2.stop_analysis = s.stop_analysis := rfl

theorem processMissing_noleak (env : AnalyzeEnv) (commit file actual_file : String)
    (s : AState) (hstop : s.stop_analysis = false) :
    (processMissing env commit file actual_file s).2 = FlowSig.exitFn ∨
      (processMissing env commit file actual_file s).1.stop_analysis = false := by
  unfold processMissing
  dsimp only
  by_cases hkey : (file ++ ":" ++ commit) ∈ s.processed_missing_files
  · rw [if_pos hkey]
    exact Or.inr hstop
  · rw [if_neg hkey]
    have haskd := ask_to_search_stop env actual_file
      { s with processed_missing_files :=
          sinsert s.processed_missing_files (file ++ ":" ++ commit) }
    by_cases hex : (ask_to_search_file env actual_file
        { s with processed_missing_files :=
            sinsert s.processed_missing_files (file ++ ":" ++ commit) }).2.exited = true
    · rw [if_pos hex]
      exact Or.inl rfl
    · rw [if_neg hex]
      have haskstop : (ask_to_search_file env actual_file
          { s with processed_missing_files :=
              sinsert s.processed_missing_files (file ++ ":" ++ commit) }).2.stop_analysis
          = false := by
        rcases haskd with h | h
        · rw [h]; exact hstop
        · exact absurd h hex
      by_cases hok : (ask_to_search_file env actual_file
          { s with processed_missing_files :=
              sinsert s.processed_missing_files (file ++ ":" ++ commit) }).1 = false
      · rw [if_pos hok]
        exact Or.inr haskstop
      · rw [if_neg hok]
        cases hadd : env.find_commit_adding_file file with
        | some adding_commit =>
            dsimp only
            split
            · split
              · split
                · exact Or.inl rfl
                · rename_i hguard
                  refine Or.inr ?_
                  simpa using hguard
              · split
                · split
                  · exact Or.inl rfl
                  · rename_i hguard
                    refine Or.inr ?_
                    simpa using hguard
                · exact Or.inl rfl
            · split
              · split
                · exact Or.inl rfl
                · rename_i hguard
                  refine Or.inr ?_
                  simpa using hguard
              · split
                · exact Or.inl rfl
                · refine Or.inr ?_
                  rw [do_select_stop]
                  exact haskstop
        | none =>
            dsimp only
            split
            · refine Or.inr ?_
              simp only [popInput_stop, do_select_stop]
              exact haskstop
            · split
              · exact Or.inl rfl
              · refine Or.inr ?_
                rw [do_select_stop]
                exact haskstop

theorem depLoop_noleak (env : AnalyzeEnv) (rec : String → AState → AState)
    (commit : String) :
    ∀ (deps : List String) (s : AState), s.stop_analysis = false →
      (depLoop env rec commit deps s).2 = FlowSig.exitFn ∨
        (depLoop env rec commit deps s).1.stop_analysis = false := by
  intro deps
  induction deps with
  | nil => intro s h; exact Or.inr h
  | cons dep rest ih =>
      intro s h
      unfold depLoop
      by_cases hauto : env.auto_add_dependencies = true
      · rw [if_pos hauto]
        exact ih _ (by rw [add_commit_once_stop]; exact h)
      · rw [if_neg hauto]
        dsimp only
        split
        · split
          · exact Or.inl rfl
          · rename_i hguard
            rw [not_or] at hguard
            refine ih _ ?_
            simpa using hguard.1
        · split
          · exact Or.inl rfl
          · split
            · exact Or.inl rfl
            · rename_i hguard
              refine ih _ ?_
              simpa using hguard

theorem processFileDeps_noleak (env : AnalyzeEnv) (rec : String → AState → AState)
    (commit actual_file : String) (s2 : AState) :
    (processFileDeps env rec commit actual_file s2).2 = FlowSig.exitFn ∨
      (processFileDeps env rec commit actual_file s2).1.stop_analysis = false := by
  unfold processFileDeps
  by_cases hs : s2.stop_analysis = true
  · rw [if_pos hs]
    exact Or.inl rfl
  · rw [if_neg hs]
    dsimp only
    exact depLoop_noleak env rec commit _ _ (by simpa using hs)

theorem processFileTail_noleak (env : AnalyzeEnv) (rec : String → AState → AState)
    (commit actual_file : String) (s1 : AState) :
    (processFileTail env rec commit actual_file s1).2 = FlowSig.exitFn ∨
      (processFileTail env rec commit actual_file s1).1.stop_analysis = false := by
  unfold processFileTail
  split
  · exact Or.inl rfl
  · exact processFileDeps_noleak env rec commit actual_file _

theorem processFile_noleak (env : AnalyzeEnv) (rec : String → AState → AState)
    (commit file : String) (s : AState) (hstop : s.stop_analysis = false) :
    (processFile env rec commit file s).2 = FlowSig.exitFn ∨
      (processFile env rec commit file s).1.stop_analysis = false := by
  unfold processFile
  dsimp only
  by_cases hcf : lookupD s.file_renames file file ∈ s.created_files
  · rw [if_pos hcf]
    exact Or.inr hstop
  · rw [if_neg hcf]
    by_cases habs : env.file_absent (lookupD s.file_renames file file) = true
    · rw [if_pos habs]
      rcases hpm : processMissing env commit file (lookupD s.file_renames file file) s
        with ⟨s1, sig1⟩
      have hnl := processMissing_noleak env commit file
        (lookupD s.file_renames file file) s hstop
      rw [hpm] at hnl
      dsimp only at hnl
      cases sig1 with
      | exitFn => exact Or.inl rfl
      | skipFile =>
          refine Or.inr ?_
          rcases hnl with h | h
          · exact absurd h (by simp)
          · exact h
      | proceed => exact processFileTail_noleak env rec commit _ s1
    · rw [if_neg habs]
      exact processFileTail_noleak env rec commit _ s

/-- C7: once `stop_analysis` is set, analysis unwinds without side effects:
`analyze_commit` returns its state unchanged when the flag is already true,
and whenever an iteration of the per-file loop or of the dependency loop
ends with the flag set (a user decision stopped the traversal, possibly
inside a recursive analysis), it signals return-from-function, so the
enclosing loops perform no further mutation. -/
theorem analyze_commit_stop_noop (env : AnalyzeEnv) :
    (∀ (fuel : Nat) (commit : String) (s : AState), s.stop_analysis = true →
        analyze_commit env fuel commit s = s) ∧
      (∀ (rec : String → AState → AState) (commit file : String) (s : AState),
        s.stop_analysis = false →
        (processFile env rec commit file s).1.stop_analysis = true →
        (processFile env rec commit file s).2 = FlowSig.exitFn) ∧
      (∀ (rec : String → AState → AState) (commit : String) (deps : List String)
        (s : AState), s.stop_analysis = false →
        (depLoop env rec commit deps s).1.stop_analysis = true →
        (depLoop env rec commit deps s).2 = FlowSig.exitFn) := by
  refine ⟨?_, ?_, ?_⟩
  · intro fuel commit s h
    cases fuel with
    | zero => rfl
    | succ fuel =>
        rw [analyze_commit]
        by_cases he : s.exited = true
        · rw [if_pos he]
        · rw [if_neg he, if_pos h]
  · intro rec commit file s h hstop1
    rcases processFile_noleak env rec commit file s h with h1 | h1
    · exact h1
    · rw [h1] at hstop1
      exact absurd hstop1 (by simp)
  · intro rec commit deps s h hstop1
    rcases depLoop_noleak env rec commit deps s h with h1 | h1
    · exact h1
    · rw [h1] at hstop1
      exact absurd hstop1 (by simp)

/-- Concrete environment for the analysis-machine witnesses and
counterexamples. -/
def analyzeEnvW : AnalyzeEnv where
  auto_mode := false
  dry_run := false
  auto_add_dependencies := false
  initial_commit := some "c1"
  initial_commits := ["c1"]
  get_commit_files := fun _ => ["f.py"]
  file_absent := fun _ => false
  find_commit_adding_file := fun _ => none
  find_commit_history_chain := fun _ _ => []
  get_last_commit_affecting_file := fun _ => ""
  deps_env := fun _ _ => depsEnvW
  cherry_ok := fun _ => true
  edit_ok := fun _ => true
  recovered := fun _ => false
  recovery_renames := fun _ => []

/-- A state with the stop flag set, for the C7 witness. -/
def stopStateW : AState where
  final_commits := ["c0"]
  cherry_pick_queue := []
  analyzed_commits := []
  applied_commits := []
  skipped_commits := []
  file_renames := []
  dep_cache := []
  stop_analysis := true
  processed_missing_files := []
  created_files := []
  inputs := []
  exited := false

/-- Witness for C7: with the stop flag set, a concrete `analyze_commit` call
returns the state unchanged. -/
theorem analyze_commit_stop_noop_witness :
    analyze_commit analyzeEnvW 3 "c9" stopStateW = stopStateW :=
  (analyze_commit_stop_noop analyzeEnvW).1 3 "c9" stopStateW rfl

/-- Relation between a state and a later state reached by the analysis/apply
machinery: `final_commits` only grows, and any commit newly present in
`applied_commits` is already in the new `final_commits`. -/
def StepOK (s t : AState) : Prop :=
  (∀ c, c ∈ s.final_commits → c ∈ t.final_commits) ∧
    (∀ c, c ∈ t.applied_commits → c ∈ s.applied_commits ∨ c ∈ t.final_commits)

theorem StepOK.refl (s : AState) : StepOK s s :=
  ⟨fun _ h => h, fun _ h => Or.inl h⟩

theorem StepOK.trans {s t u : AState} (h1 : StepOK s t) (h2 : StepOK t u) :
    StepOK s u := by
  refine ⟨fun c hc => h2.1 c (h1.1 c hc), fun c hc => ?_⟩
  rcases h2.2 c hc with h | h
  · rcases h1.2 c h with h' | h'
    · exact Or.inl h'
    · exact Or.inr (h2.1 c h')
  · exact Or.inr h

theorem StepOK.of_eq {s t : AState} (hf : t.final_commits = s.final_commits)
    (ha : t.applied_commits = s.applied_commits) : StepOK s t := by
  refine ⟨fun c hc => ?_, fun c hc => ?_⟩
  · rw [hf]; exact hc
  · rw [ha] at hc; exact Or.inl hc

theorem StepOK_add_commit_once (c : String) (s : AState) :
    StepOK s (add_commit_once c s) := by
  unfold add_commit_once
  refine ⟨fun x hx => ?_, fun x hx => Or.inl hx⟩
  dsimp only
  split
  · exact hx
  · exact List.mem_append_left _ hx

theorem StepOK_foldl_add (chain : List String) :
    ∀ s : AState, StepOK s (chain.foldl (fun st c => add_commit_once c st) s) := by
  induction chain with
  | nil => intro s; exact StepOK.refl s
  | cons c rest ih =>
      intro s
      rw [List.foldl_cons]
      exact (StepOK_add_commit_once c s).trans (ih _)

theorem do_select_final (env : AnalyzeEnv) (opts : List String) (s : AState) :
    (do_select env opts s).2.final_commits = s.final_commits := by
  unfold do_select popInput
  split <;> rfl

theorem do_select_applied (env : AnalyzeEnv) (opts : List String) (s : AState) :
    (do_select env opts s).2.applied_commits = s.applied_commits := by
  unfold do_select popInput
  split <;> rfl

theorem applyStep_final (env : AnalyzeEnv) (c : String) (s : AState) :
    (applyStep env c s).final_commits = s.final_commits := by
  unfold applyStep
  split
  · rfl
  · split
    · rfl
    · split
      · rfl
      · split <;> rfl

theorem StepOK_applyStep (env : AnalyzeEnv) (c : String) (s : AState)
    (hc : c ∈ s.final_commits) : StepOK s (applyStep env c s) := by
  refine ⟨fun x hx => ?_, fun x hx => ?_⟩
  · rw [applyStep_final]; exact hx
  · unfold applyStep at hx
    split at hx
    · exact Or.inl hx
    · split at hx
      · exact Or.inl hx
      · split at hx
        · exact Or.inl hx
        · split at hx
          · dsimp only at hx
            unfold sinsert at hx
            split at hx
            · exact Or.inl hx
            · rcases List.mem_append.mp hx with h | h
              · exact Or.inl h
              · rw [List.mem_singleton.mp h, applyStep_final]
                exact Or.inr hc
          · dsimp only at hx
            split at hx
            · unfold sinsert at hx
              split at hx
              · exact Or.inl hx
              · rcases List.mem_append.mp hx with h | h
                · exact Or.inl h
                · rw [List.mem_singleton.mp h, applyStep_final]
                  exact Or.inr hc
            · exact Or.inl hx

theorem mem_dedupPlan (x : String) (l sk : List String) (hx : x ∈ dedupPlan l sk) :
    x ∈ l := by
  unfold dedupPlan at hx
  rw [foldl_planStep, List.nil_append] at hx
  have h1 := (mem_dedupFirstAux x _ []).mp hx
  exact (List.mem_filter.mp h1.1).1

theorem StepOK_foldl_applyStep (env : AnalyzeEnv) (plan : List String) :
    ∀ s : AState, (∀ c ∈ plan, c ∈ s.final_commits) →
      StepOK s (plan.foldl (fun st c => applyStep env c st) s) := by
  induction plan with
  | nil => intro s _; exact StepOK.refl s
  | cons c rest ih =>
      intro s h
      rw [List.foldl_cons]
      refine (StepOK_applyStep env c s (h c (List.mem_cons_self c rest))).trans
        (ih _ ?_)
      intro d hd
      rw [applyStep_final]
      exact h d (List.mem_cons_of_mem c hd)

theorem StepOK_apply_commits (env : AnalyzeEnv) (s : AState) :
    StepOK s (apply_commits_in_order env s) := by
  unfold apply_commits_in_order
  dsimp only
  have hfin : ∀ c, c ∈ s.final_commits →
      c ∈ apply_plan_final env.initial_commits s.final_commits s.skipped_commits := by
    intro c hc
    unfold apply_plan_final
    rw [foldl_planStep]
    exact List.mem_append_left _ hc
  have h1 : StepOK s
      { s with
        final_commits :=
          apply_plan_final env.initial_commits s.final_commits s.skipped_commits } :=
    ⟨fun c hc => hfin c hc, fun c hc => Or.inl hc⟩
  split
  · exact h1
  · refine h1.trans (StepOK_foldl_applyStep env _ _ ?_)
    intro c hc
    exact mem_dedupPlan c _ _ hc

theorem StepOK_ask_to_proceed (env : AnalyzeEnv) (s : AState) :
    StepOK s (ask_to_proceed env s) := by
  unfold ask_to_proceed
  split
  · exact StepOK.refl s
  · dsimp only
    have hext : StepOK s
        { s with
          final_commits :=
            env.initial_commits.foldl
              (fun acc c => if c ∈ acc then acc else acc ++ [c]) s.final_commits } := by
      refine ⟨fun c hc => ?_, fun c hc => Or.inl hc⟩
      dsimp only
      generalize s.final_commits = acc at hc ⊢
      induction env.initial_commits generalizing acc with
      | nil => exact hc
      | cons d rest ih =>
          rw [List.foldl_cons]
          split
          · exact ih _ hc
          · exact ih _ (List.mem_append_left _ hc)
    split
    · exact hext.trans (StepOK_apply_commits env _)
    · split
      · refine hext.trans (StepOK.trans ?_ (StepOK_apply_commits env _))
        exact StepOK.of_eq (do_select_final _ _ _) (do_select_applied _ _ _)
      · exact hext.trans
          (StepOK.of_eq (do_select_final _ _ _) (do_select_applied _ _ _))

theorem set_stop_final (t : AState) (b : Bool) :
    ({ t with stop_analysis := b } : AState).final_commits = t.final_commits := rfl

theorem set_stop_applied (t : AState) (b : Bool) :
    ({ t with stop_analysis := b } : AState).applied_commits = t.applied_commits := rfl

theorem set_exited_final (t : AState) (b : Bool) :
    ({ t with exited := b } : AState).final_commits = t.final_commits := rfl

theorem set_exited_applied (t : AState) (b : Bool) :
    ({ t with exited := b } : AState).applied_commits = t.applied_commits := rfl

theorem StepOK_ask_to_search (env : AnalyzeEnv) (f : String) (s : AState) :
    StepOK s (ask_to_search_file env f s).2 := by
  unfold ask_to_search_file
  split
  · exact StepOK.refl s
  · dsimp only
    have hsel : StepOK s (do_select env
        ["Buscar el archivo en commits anteriores",
          "Ignorar archivo y continuar con el cherry-pick",
          "Aplicar directamente los commits agregados hasta ahora",
          "Cancelar operación"] s).2 :=
      StepOK.of_eq (do_select_final _ _ _) (do_select_applied _ _ _)
    split
    · exact hsel
    · split
      · exact hsel
      · split
        · split
          · exact ((hsel.trans
                (StepOK.of_eq (set_stop_final _ _) (set_stop_applied _ _))).trans
                  (StepOK_ask_to_proceed env _)).trans
              (StepOK.of_eq (set_exited_final _ _) (set_exited_applied _ _))
          · exact hsel
        · exact hsel.trans
            (StepOK.of_eq (set_exited_final _ _) (set_exited_applied _ _))

theorem popInput_final (s : AState) :
    (popInput s).2.final_commits = s.final_commits := rfl

theorem popInput_applied (s : AState) :
    (popInput s).2.applied_commits = s.applied_commits := rfl

theorem set_created_final (t : AState) (X : List String) :
    ({ t with created_files := X } : AState).final_commits = t.final_commits := rfl

theorem set_created_applied (t : AState) (X : List String) :
    ({ t with created_files := X } : AState).applied_commits = t.applied_commits := rfl

theorem set_renames_final (t : AState) (X : List (String × String)) :
    ({ t with file_renames := X } : AState).final_commits = t.final_commits := rfl

theorem set_renames_applied (t : AState) (X : List (String × String)) :
    ({ t with file_renames := X } : AState).applied_commits = t.applied_commits := rfl

theorem set_cache_final (t : AState) (X : DepCache) :
    ({ t with dep_cache := X } : AState).final_commits = t.final_commits := rfl

theorem set_cache_applied (t : AState) (X : DepCache) :
    ({ t with dep_cache := X } : AState).applied_commits = t.applied_commits := rfl

theorem set_processed_final (t : AState) (X : List String) :
    ({ t with processed_missing_files := X } : AState).final_commits = t.final_commits := rfl

theorem set_processed_applied (t : AState) (X : List String) :
    ({ t with processed_missing_files := X } : AState).applied_commits = t.applied_commits := rfl

theorem StepOK_processMissing (env : AnalyzeEnv) (commit file af : String)
    (s : AState) : StepOK s (processMissing env commit file af s).1 := by
  unfold processMissing
  dsimp only
  by_cases hkey : (file ++ ":" ++ commit) ∈ s.processed_missing_files
  · rw [if_pos hkey]
    exact StepOK.refl s
  · rw [if_neg hkey]
    have hask : StepOK s (ask_to_search_file env af
        { s with processed_missing_files :=
            sinsert s.processed_missing_files (file ++ ":" ++ commit) }).2 :=
      (StepOK.of_eq (set_processed_final s _) (set_processed_applied s _)).trans
        (StepOK_ask_to_search env af
          { s with processed_missing_files :=
              sinsert s.processed_missing_files (file ++ ":" ++ commit) })
    by_cases hex : (ask_to_search_file env af
        { s with processed_missing_files :=
            sinsert s.processed_missing_files (file ++ ":" ++ commit) }).2.exited = true
    · rw [if_pos hex]
      exact hask
    · rw [if_neg hex]
      by_cases hok : (ask_to_search_file env af
          { s with processed_missing_files :=
              sinsert s.processed_missing_files (file ++ ":" ++ commit) }).1 = false
      · rw [if_pos hok]
        exact hask
      · rw [if_neg hok]
        cases hadd : env.find_commit_adding_file file with
        | some adding =>
            dsimp only
            split
            · split
              · split
                · exact ((hask.trans (StepOK.of_eq (do_select_final _ _ _)
                      (do_select_applied _ _ _))).trans (StepOK_foldl_add _ _)).trans
                    (StepOK.of_eq (set_created_final _ _) (set_created_applied _ _))
                · exact ((hask.trans (StepOK.of_eq (do_select_final _ _ _)
                      (do_select_applied _ _ _))).trans (StepOK_foldl_add _ _)).trans
                    (StepOK.of_eq (set_created_final _ _) (set_created_applied _ _))
              · split
                · split
                  · exact ((hask.trans (StepOK.of_eq (do_select_final _ _ _)
                        (do_select_applied _ _ _))).trans
                          (StepOK_add_commit_once _ _)).trans
                      (StepOK.of_eq (set_created_final _ _) (set_created_applied _ _))
                  · exact ((hask.trans (StepOK.of_eq (do_select_final _ _ _)
                        (do_select_applied _ _ _))).trans
                          (StepOK_add_commit_once _ _)).trans
                      (StepOK.of_eq (set_created_final _ _) (set_created_applied _ _))
                · exact (hask.trans (StepOK.of_eq (do_select_final _ _ _)
                      (do_select_applied _ _ _))).trans
                    (StepOK.of_eq (set_stop_final _ _) (set_stop_applied _ _))
            · split
              · split
                · exact ((hask.trans (StepOK.of_eq (do_select_final _ _ _)
                      (do_select_applied _ _ _))).trans
                        (StepOK_add_commit_once _ _)).trans
                    (StepOK.of_eq (set_created_final _ _) (set_created_applied _ _))
                · exact ((hask.trans (StepOK.of_eq (do_select_final _ _ _)
                      (do_select_applied _ _ _))).trans
                        (StepOK_add_commit_once _ _)).trans
                    (StepOK.of_eq (set_created_final _ _) (set_created_applied _ _))
              · split
                · exact (hask.trans (StepOK.of_eq (do_select_final _ _ _)
                      (do_select_applied _ _ _))).trans
                    (StepOK.of_eq (set_stop_final _ _) (set_stop_applied _ _))
                · exact hask.trans (StepOK.of_eq (do_select_final _ _ _)
                    (do_select_applied _ _ _))
        | none =>
            dsimp only
            split
            · exact ((hask.trans (StepOK.of_eq (do_select_final _ _ _)
                  (do_select_applied _ _ _))).trans
                    (StepOK.of_eq (popInput_final _) (popInput_applied _))).trans
                (StepOK.of_eq (set_renames_final _ _) (set_renames_applied _ _))
            · split
              · exact (hask.trans (StepOK.of_eq (do_select_final _ _ _)
                    (do_select_applied _ _ _))).trans
                  (StepOK.of_eq (set_stop_final _ _) (set_stop_applied _ _))
              · exact hask.trans (StepOK.of_eq (do_select_final _ _ _)
                  (do_select_applied _ _ _))

theorem set_analyzed_final (t : AState) (X : List String) :
    ({ t with analyzed_commits := X } : AState).final_commits = t.final_commits := rfl

theorem set_analyzed_applied (t : AState) (X : List String) :
    ({ t with analyzed_commits := X } : AState).applied_commits = t.applied_commits := rfl

theorem StepOK_depLoop (env : AnalyzeEnv) (rec : String → AState → AState)
    (hrec : ∀ c t, StepOK t (rec c t)) (commit : String) :
    ∀ (deps : List String) (s : AState), StepOK s (depLoop env rec commit deps s).1 := by
  intro deps
  induction deps with
  | nil => intro s; exact StepOK.refl s
  | cons dep rest ih =>
      intro s
      unfold depLoop
      by_cases hauto : env.auto_add_dependencies = true
      · rw [if_pos hauto]
        exact (StepOK_add_commit_once dep s).trans (ih _)
      · rw [if_neg hauto]
        dsimp only
        split
        · split
          · exact ((StepOK.of_eq (do_select_final _ _ _)
                (do_select_applied _ _ _)).trans
                  (StepOK_add_commit_once _ _)).trans (hrec _ _)
          · exact (((StepOK.of_eq (do_select_final _ _ _)
                (do_select_applied _ _ _)).trans
                  (StepOK_add_commit_once _ _)).trans (hrec _ _)).trans (ih _)
        · split
          · exact (StepOK.of_eq (do_select_final _ _ _)
              (do_select_applied _ _ _)).trans
                (StepOK.of_eq (set_stop_final _ _) (set_stop_applied _ _))
          · split
            · exact StepOK.of_eq (do_select_final _ _ _) (do_select_applied _ _ _)
            · exact (StepOK.of_eq (do_select_final _ _ _)
                (do_select_applied _ _ _)).trans (ih _)

theorem StepOK_processFileDeps (env : AnalyzeEnv) (rec : String → AState → AState)
    (hrec : ∀ c t, StepOK t (rec c t)) (commit actual_file : String) (s2 : AState) :
    StepOK s2 (processFileDeps env rec commit actual_file s2).1 := by
  unfold processFileDeps
  by_cases hs : s2.stop_analysis = true
  · rw [if_pos hs]
    exact StepOK.refl s2
  · rw [if_neg hs]
    dsimp only
    exact (StepOK.of_eq (set_cache_final _ _) (set_cache_applied _ _)).trans
      (StepOK_depLoop env rec hrec commit _ _)

theorem StepOK_processFileLast (env : AnalyzeEnv) (rec : String → AState → AState)
    (hrec : ∀ c t, StepOK t (rec c t)) (commit actual_file : String) (s1 : AState) :
    StepOK s1 (processFileLast env rec commit actual_file s1).1 := by
  unfold processFileLast
  dsimp only
  split
  · split
    · split
      · exact ((StepOK.of_eq (do_select_final _ _ _)
            (do_select_applied _ _ _)).trans
              (StepOK_add_commit_once _ _)).trans (hrec _ _)
      · exact ((StepOK.of_eq (do_select_final _ _ _)
            (do_select_applied _ _ _)).trans
              (StepOK_add_commit_once _ _)).trans (hrec _ _)
    · split
      · exact (StepOK.of_eq (do_select_final _ _ _)
          (do_select_applied _ _ _)).trans
            (StepOK.of_eq (set_stop_final _ _) (set_stop_applied _ _))
      · exact StepOK.of_eq (do_select_final _ _ _) (do_select_applied _ _ _)
  · exact StepOK.refl s1

theorem StepOK_processFileTail (env : AnalyzeEnv) (rec : String → AState → AState)
    (hrec : ∀ c t, StepOK t (rec c t)) (commit actual_file : String) (s1 : AState) :
    StepOK s1 (processFileTail env rec commit actual_file s1).1 := by
  have hpl0 := StepOK_processFileLast env rec hrec commit actual_file s1
  rcases hpl : processFileLast env rec commit actual_file s1 with ⟨s2, sig⟩
  rw [hpl] at hpl0
  dsimp only at hpl0
  unfold processFileTail
  rw [hpl]
  cases sig with
  | exitFn => exact hpl0
  | proceed => exact hpl0.trans (StepOK_processFileDeps env rec hrec commit actual_file s2)
  | skipFile => exact hpl0.trans (StepOK_processFileDeps env rec hrec commit actual_file s2)

theorem StepOK_processFile (env : AnalyzeEnv) (rec : String → AState → AState)
    (hrec : ∀ c t, StepOK t (rec c t)) (commit file : String) (s : AState) :
    StepOK s (processFile env rec commit file s).1 := by
  unfold processFile
  dsimp only
  by_cases hcf : lookupD s.file_renames file file ∈ s.created_files
  · rw [if_pos hcf]
    exact StepOK.refl s
  · rw [if_neg hcf]
    by_cases habs : env.file_absent (lookupD s.file_renames file file) = true
    · rw [if_pos habs]
      have hsm0 := StepOK_processMissing env commit file (lookupD s.file_renames file file) s
      rcases hpm : processMissing env commit file (lookupD s.file_renames file file) s
        with ⟨s1, sig1⟩
      rw [hpm] at hsm0
      dsimp only at hsm0
      cases sig1 with
      | exitFn => exact hsm0
      | skipFile => exact hsm0
      | proceed =>
          exact hsm0.trans (StepOK_processFileTail env rec hrec commit _ s1)
    · rw [if_neg habs]
      exact StepOK_processFileTail env rec hrec commit _ s

theorem StepOK_fileLoop (env : AnalyzeEnv) (rec : String → AState → AState)
    (hrec : ∀ c t, StepOK t (rec c t)) (commit : String) :
    ∀ (files : List String) (s : AState), StepOK s (fileLoop env rec commit files s) := by
  intro files
  induction files with
  | nil => intro s; exact StepOK.refl s
  | cons f rest ih =>
      intro s
      unfold fileLoop
      by_cases hex : s.exited = true
      · rw [if_pos hex]
        exact StepOK.refl s
      · rw [if_neg hex]
        have hpf0 := StepOK_processFile env rec hrec commit f s
        rcases hpf : processFile env rec commit f s with ⟨s1, sig⟩
        rw [hpf] at hpf0
        dsimp only at hpf0
        cases sig with
        | exitFn => exact hpf0
        | proceed => exact hpf0.trans (ih s1)
        | skipFile => exact hpf0.trans (ih s1)

theorem StepOK_analyze (env : AnalyzeEnv) :
    ∀ (fuel : Nat) (commit : String) (s : AState),
      StepOK s (analyze_commit env fuel commit s) := by
  intro fuel
  induction fuel with
  | zero => intro commit s; exact StepOK.refl s
  | succ fuel ih =>
      intro commit s
      unfold analyze_commit
      by_cases hex : s.exited = true
      · rw [if_pos hex]; exact StepOK.refl s
      · rw [if_neg hex]
        by_cases hst : s.stop_analysis = true
        · rw [if_pos hst]; exact StepOK.refl s
        · rw [if_neg hst]
          by_cases hmem : commit ∈ s.analyzed_commits ∨ commit ∈ s.applied_commits
          · rw [if_pos hmem]; exact StepOK.refl s
          · rw [if_neg hmem]
            dsimp only
            refine (StepOK.trans (StepOK.trans
              (⟨fun c hc => ?_, fun c hc => Or.inl hc⟩ :
                StepOK s { s with
                  final_commits :=
                    if commit ∈ s.final_commits then s.final_commits
                    else s.final_commits ++ [commit] })
              (StepOK.of_eq (set_analyzed_final _ _) (set_analyzed_applied _ _)))
              (StepOK_fileLoop env (analyze_commit env fuel)
                (fun c t => ih c t) commit _ _))
            dsimp only
            split
            · exact hc
            · exact List.mem_append_left _ hc

/-- `process_commit` (source lines 1000-1054) together with
`edit_commit_before_applying` (source lines 1056-1100).  Automatic mode
analyzes directly; otherwise one of the four menu options is selected.  The
direct-apply branch appends to `final_commits` only in dry-run mode or on
cherry-pick success; a failure goes to `handle_cherry_pick_error`, abstracted
exactly as in `applyStep` (`env.recovered` / `env.recovery_renames`).  The
edit branch adds the commit to both sets when the preparatory
`git cherry-pick -n` succeeds (`env.edit_ok`) and leaves the state unchanged
when it fails (source line 1070).  The last option marks the commit
skipped. -/
def process_commit (env : AnalyzeEnv) (fuel : Nat) (c : String) (s : AState) :
    AState :=
  if s.exited then s
  else if env.auto_mode then analyze_commit env fuel c s
  else
    let sel := do_select env
      ["Analizar commit para buscar dependencias",
        "Aplicar cherry-pick directamente sin análisis",
        "Editar el contenido y mensaje del commit antes de aplicarlo",
        "Omitir este commit"] s
    if sel.1.startsWith "Analizar" then analyze_commit env fuel c sel.2
    else if sel.1.startsWith "Aplicar" then
      if env.dry_run then
        { sel.2 with final_commits := sel.2.final_commits ++ [c] }
      else if env.cherry_ok c then
        { sel.2 with
          applied_commits := sinsert sel.2.applied_commits c
          final_commits := sel.2.final_commits ++ [c] }
      else
        { sel.2 with
          applied_commits :=
            if env.recovered c then sinsert sel.2.applied_commits c
            else sel.2.applied_commits
          file_renames := env.recovery_renames c ++ sel.2.file_renames }
    else if sel.1.startsWith "Editar" then
      if env.edit_ok c then
        { sel.2 with
          applied_commits := sinsert sel.2.applied_commits c
          final_commits := sel.2.final_commits ++ [c] }
      else sel.2
    else { sel.2 with skipped_commits := sinsert sel.2.skipped_commits c }

/-- One iteration of `main`'s commit loop (source lines 2395-2407): commits
already applied or marked skipped are passed over; otherwise
`initial_commit` is rebound, `stop_analysis` reset, `cherry_pick_queue`
re-seeded, and `process_commit` runs. -/
def main_step (env : AnalyzeEnv) (fuel : Nat) (st : AState) (c : String) :
    AState :=
  if st.exited then st
  else if c ∈ st.applied_commits then st
  else if c ∈ st.skipped_commits then st
  else process_commit { env with initial_commit := some c } fuel c
    { st with stop_analysis := false, cherry_pick_queue := [c] }

/-- The state at the top of `main`'s commit loop (source lines 2340-2389):
`applied_commits` holds the persisted history (`load_history()`, line 2341),
`skipped_commits`, `file_renames` and the dependency cache are loaded from
disk/arguments, and `final_commits` starts empty (line 2387). -/
def initState (history skipped : List String)
    (renames : List (String × String)) (cache : DepCache)
    (inputs : List String) : AState where
  final_commits := []
  cherry_pick_queue := []
  analyzed_commits := []
  applied_commits := history
  skipped_commits := skipped
  file_renames := renames
  dep_cache := cache
  stop_analysis := false
  processed_missing_files := []
  created_files := []
  inputs := inputs
  exited := false

/-- A completed invocation (source lines 2340-2412): the commit loop over
`initial_commits`, then `ask_to_proceed()` when `final_commits` is non-empty
and not already fully applied (line 2409). -/
def main_run (env : AnalyzeEnv) (fuel : Nat) (history skipped : List String)
    (renames : List (String × String)) (cache : DepCache)
    (inputs : List String) : AState :=
  let s1 := env.initial_commits.foldl (fun st c => main_step env fuel st c)
    (initState history skipped renames cache inputs)
  if s1.final_commits = [] then s1
  else if s1.final_commits.all (fun c => decide (c ∈ s1.applied_commits)) then s1
  else ask_to_proceed env s1

/-- Weakening of `StepOK` for the top-level commit loop: `final_commits`
only grows, and any commit newly present in `applied_commits` is either in
the new `final_commits` or was added by the error-recovery path of a failed
direct apply (`rec c`, instantiated with `env.recovered`). -/
def RunOK (rc : String → Bool) (s t : AState) : Prop :=
  (∀ c, c ∈ s.final_commits → c ∈ t.final_commits) ∧
    (∀ c, c ∈ t.applied_commits →
      c ∈ s.applied_commits ∨ c ∈ t.final_commits ∨ rc c = true)

theorem RunOK.rfl (rc : String → Bool) (s : AState) : RunOK rc s s :=
  ⟨fun _ h => h, fun _ h => Or.inl h⟩

theorem RunOK.comp {rc : String → Bool} {s t u : AState}
    (h1 : RunOK rc s t) (h2 : RunOK rc t u) : RunOK rc s u := by
  refine ⟨fun c hc => h2.1 c (h1.1 c hc), fun c hc => ?_⟩
  rcases h2.2 c hc with h | h | h
  · rcases h1.2 c h with h' | h' | h'
    · exact Or.inl h'
    · exact Or.inr (Or.inl (h2.1 c h'))
    · exact Or.inr (Or.inr h')
  · exact Or.inr (Or.inl h)
  · exact Or.inr (Or.inr h)

theorem RunOK.of_stepOK {rc : String → Bool} {s t : AState} (h : StepOK s t) :
    RunOK rc s t :=
  ⟨h.1, fun c hc => (h.2 c hc).elim Or.inl (fun h' => Or.inr (Or.inl h'))⟩

theorem RunOK_append_final (rc : String → Bool) (t : AState) (c : String) :
    RunOK rc t { t with final_commits := t.final_commits ++ [c] } := by
  refine ⟨fun x hx => List.mem_append_left _ hx, fun x hx => Or.inl hx⟩

theorem RunOK_direct_ok (rc : String → Bool) (t : AState) (c : String) :
    RunOK rc t { t with
      applied_commits := sinsert t.applied_commits c
      final_commits := t.final_commits ++ [c] } := by
  refine ⟨fun x hx => List.mem_append_left _ hx, fun x hx => ?_⟩
  dsimp only at hx
  unfold sinsert at hx
  split at hx
  · exact Or.inl hx
  · rcases List.mem_append.mp hx with h | h
    · exact Or.inl h
    · refine Or.inr (Or.inl ?_)
      rw [List.mem_singleton.mp h]
      exact List.mem_append_right _ (List.mem_singleton.mpr rfl)

theorem RunOK_direct_recover (rc : String → Bool)
    (rn : List (String × String)) (t : AState) (c : String) :
    RunOK rc t { t with
      applied_commits :=
        if rc c then sinsert t.applied_commits c else t.applied_commits
      file_renames := rn ++ t.file_renames } := by
  refine ⟨fun x hx => hx, fun x hx => ?_⟩
  dsimp only at hx
  split at hx
  · rename_i hrc
    unfold sinsert at hx
    split at hx
    · exact Or.inl hx
    · rcases List.mem_append.mp hx with h | h
      · exact Or.inl h
      · rw [List.mem_singleton.mp h]
        exact Or.inr (Or.inr hrc)
  · exact Or.inl hx

theorem set_skipped_final (t : AState) (X : List String) :
    ({ t with skipped_commits := X } : AState).final_commits = t.final_commits := rfl

theorem set_skipped_applied (t : AState) (X : List String) :
    ({ t with skipped_commits := X } : AState).applied_commits = t.applied_commits := rfl

theorem mainReset_final (t : AState) (c : String) :
    ({ t with stop_analysis := false, cherry_pick_queue := [c] } : AState).final_commits
      = t.final_commits := rfl

theorem mainReset_applied (t : AState) (c : String) :
    ({ t with stop_analysis := false, cherry_pick_queue := [c] } : AState).applied_commits
      = t.applied_commits := rfl

theorem RunOK_process_commit (env : AnalyzeEnv) (fuel : Nat) (c : String)
    (s : AState) : RunOK env.recovered s (process_commit env fuel c s) := by
  unfold process_commit
  by_cases hex : s.exited = true
  · rw [if_pos hex]
    exact RunOK.rfl env.recovered s
  · rw [if_neg hex]
    by_cases hauto : env.auto_mode = true
    · rw [if_pos hauto]
      exact RunOK.of_stepOK (StepOK_analyze env fuel c s)
    · rw [if_neg hauto]
      dsimp only
      split
      · exact (RunOK.of_stepOK (StepOK.of_eq (do_select_final _ _ _)
          (do_select_applied _ _ _))).comp
            (RunOK.of_stepOK (StepOK_analyze env fuel c _))
      · split
        · split
          · exact (RunOK.of_stepOK (StepOK.of_eq (do_select_final _ _ _)
              (do_select_applied _ _ _))).comp (RunOK_append_final _ _ c)
          · split
            · exact (RunOK.of_stepOK (StepOK.of_eq (do_select_final _ _ _)
                (do_select_applied _ _ _))).comp (RunOK_direct_ok _ _ c)
            · exact (RunOK.of_stepOK (StepOK.of_eq (do_select_final _ _ _)
                (do_select_applied _ _ _))).comp
                  (RunOK_direct_recover env.recovered _ _ c)
        · split
          · split
            · exact (RunOK.of_stepOK (StepOK.of_eq (do_select_final _ _ _)
                (do_select_applied _ _ _))).comp (RunOK_direct_ok _ _ c)
            · exact RunOK.of_stepOK (StepOK.of_eq (do_select_final _ _ _)
                (do_select_applied _ _ _))
          · exact (RunOK.of_stepOK (StepOK.of_eq (do_select_final _ _ _)
              (do_select_applied _ _ _))).comp
                (RunOK.of_stepOK (StepOK.of_eq (set_skipped_final _ _)
                  (set_skipped_applied _ _)))

theorem RunOK_main_step (env : AnalyzeEnv) (fuel : Nat) (st : AState)
    (c : String) : RunOK env.recovered st (main_step env fuel st c) := by
  unfold main_step
  by_cases hex : st.exited = true
  · rw [if_pos hex]
    exact RunOK.rfl env.recovered st
  · rw [if_neg hex]
    by_cases ha : c ∈ st.applied_commits
    · rw [if_pos ha]
      exact RunOK.rfl env.recovered st
    · rw [if_neg ha]
      by_cases hs : c ∈ st.skipped_commits
      · rw [if_pos hs]
        exact RunOK.rfl env.recovered st
      · rw [if_neg hs]
        exact (RunOK.of_stepOK (StepOK.of_eq (mainReset_final st c)
          (mainReset_applied st c))).comp
            (RunOK_process_commit { env with initial_commit := some c } fuel c _)

theorem RunOK_foldl_main_step (env : AnalyzeEnv) (fuel : Nat)
    (commits : List String) :
    ∀ st : AState,
      RunOK env.recovered st
        (commits.foldl (fun st c => main_step env fuel st c) st) := by
  induction commits with
  | nil => intro st; exact RunOK.rfl env.recovered st
  | cons c rest ih =>
      intro st
      rw [List.foldl_cons]
      exact (RunOK_main_step env fuel st c).comp (ih _)

theorem RunOK_main_run (env : AnalyzeEnv) (fuel : Nat)
    (history skipped : List String) (renames : List (String × String))
    (cache : DepCache) (inputs : List String) :
    RunOK env.recovered (initState history skipped renames cache inputs)
      (main_run env fuel history skipped renames cache inputs) := by
  unfold main_run
  dsimp only
  split
  · exact RunOK_foldl_main_step env fuel env.initial_commits _
  · split
    · exact RunOK_foldl_main_step env fuel env.initial_commits _
    · exact (RunOK_foldl_main_step env fuel env.initial_commits _).comp
        (RunOK.of_stepOK (StepOK_ask_to_proceed env _))

/-- Environment for the concrete `main_run` evaluations: no requested
commits, interactive mode. -/
def mainEnvW : AnalyzeEnv :=
  { analyzeEnvW with initial_commits := [] }

/-- C5 counterexample: `appliedSet ⊆ finalCommits` does not survive the
history loaded at startup.  A run started with persisted history `["h1"]`
and no requested commits completes with `"h1"` in `applied_commits` but
`final_commits` empty (source: line 2341 seeds `applied_commits` from
`load_history()`, line 2387 resets `final_commits` to `[]`, and nothing ever
copies history into `final_commits`). -/
theorem main_applied_subset_final_cex :
    "h1" ∈ (main_run mainEnvW 0 ["h1"] [] [] [] []).applied_commits ∧
      "h1" ∉ (main_run mainEnvW 0 ["h1"] [] [] [] []).final_commits := by
  constructor
  · decide
  · decide

/-- C5 (amended): after a completed run, every commit in `applied_commits`
is in `final_commits`, except commits that came from the persisted history
loaded at startup and commits added by the error-recovery path of a failed
direct cherry-pick apply (`handle_cherry_pick_error`, reached from
`process_commit`); in particular every commit applied by the batch engine
`apply_commits_in_order` is in `final_commits`. -/
theorem main_applied_in_final (env : AnalyzeEnv) (fuel : Nat)
    (history skipped : List String) (renames : List (String × String))
    (cache : DepCache) (inputs : List String) (c : String)
    (hc : c ∈ (main_run env fuel history skipped renames cache inputs).applied_commits) :
    c ∈ (main_run env fuel history skipped renames cache inputs).final_commits ∨
      c ∈ history ∨ env.recovered c = true := by
  rcases (RunOK_main_run env fuel history skipped renames cache inputs).2 c hc
    with h | h | h
  · exact Or.inr (Or.inl h)
  · exact Or.inl h
  · exact Or.inr (Or.inr h)

/-- Witness for C5 at a concrete run: the history commit `"h1"` is applied
after the run and is accounted for by the history disjunct. -/
theorem main_applied_in_final_witness :
    "h1" ∈ (main_run mainEnvW 0 ["h1"] [] [] [] []).applied_commits ∧
      ("h1" ∈ (main_run mainEnvW 0 ["h1"] [] [] [] []).final_commits ∨
        "h1" ∈ ["h1"] ∨ mainEnvW.recovered "h1" = true) :=
  ⟨by decide, main_applied_in_final mainEnvW 0 ["h1"] [] [] [] [] "h1" (by decide)⟩

/-- Witness for C8 at a concrete input: the candidate returned for target
`a.py` over repository `[a.c]` scores 90, inside the 0..130 bounds. -/
theorem find_similar_files_score_bounds_witness :
    ("a.c".toList, (90 : ℤ)) ∈ find_similar_files 95 ["a.c".toList] "a.py".toList ∧
      (0 ≤ (90 : ℤ) ∧ (90 : ℤ) ≤ 130) := by
  have hm : ("a.c".toList, (90 : ℤ)) ∈ find_similar_files 95 ["a.c".toList] "a.py".toList := by
    simp only [find_similar_files, fsfExtSwap, fsfByName, fsfPartial,
      calculate_similarity_eval]
    decide
  exact ⟨hm, find_similar_files_score_bounds 95 ["a.c".toList] "a.py".toList _ hm⟩
